import Mathlib

/-!
Verification of the TKK group-id unification tool (`unify_tkk_ids.py`).

The development shallowly embeds the Python module: strings are `List Char`,
the regular expressions of the source are embedded as small backtracking
matchers that reproduce the semantics of Python's `re` on exactly the
pattern shapes the source uses (literals, the lazy classes `[^>]*?` and
`[^>]+?`, the quote class, and one greedy capture); file I/O becomes an
explicit association list from filenames to contents.
-/

namespace UnifyTkk

set_option maxHeartbeats 1000000

abbrev Str := List Char

/-- The double-quote character. -/
def dqc : Char := Char.ofNat 34

/-- The single-quote character. -/
def sqc : Char := Char.ofNat 39

/-- `occAt s L p` states that the pattern string `L` occurs in `s` at position `p`. -/
def occAt (s L : Str) (p : Nat) : Prop := L.isPrefixOf (s.drop p) = true

instance (s L : Str) (p : Nat) : Decidable (occAt s L p) := by
  unfold occAt; infer_instance

/-- Number of positions of `s` at which `L` occurs (intended for nonempty `L`). -/
def occCount (s L : Str) : Nat :=
  (List.range (s.length + 1)).countP (fun p => L.isPrefixOf (s.drop p))

/-- Substring containment test, mirroring Python's `in` on strings:
`containsSub s pat` is true iff `pat` occurs somewhere in `s`. -/
def containsSub : Str → Str → Bool
  | [], pat => pat.isPrefixOf []
  | c :: t, pat => pat.isPrefixOf (c :: t) || containsSub t pat

/-- Fueled worker for `strReplace`. -/
def strReplaceAux (pat repl : Str) : Nat → Str → Str
  | 0, s => s
  | _, [] => []
  | fuel + 1, c :: t =>
    if pat ≠ [] ∧ pat.isPrefixOf (c :: t) then
      repl ++ strReplaceAux pat repl fuel ((c :: t).drop pat.length)
    else
      c :: strReplaceAux pat repl fuel t

/-- Python's `str.replace`: replace every (left-to-right, non-overlapping)
occurrence of `pat` in `s` by `repl`.  The source only ever calls it with a
nonempty `pat`; an empty `pat` leaves `s` unchanged here. -/
def strReplace (s pat repl : Str) : Str := strReplaceAux pat repl s.length s

/-! ### A small regex engine

The four rewrite patterns of `update_svg_id` and the search pattern of
`process_block_comment` are sequences of the following items.  `star` is the
lazy class `[^>]*?`, `plus` is `[^>]+?`, `quote` is the class `["\x27]`.
-/

inductive RItem where
  | lit (l : Str)
  | star
  | plus
  | quote
deriving DecidableEq

/-- Lazy-star backtracking: try the continuation `f` after consuming `0, 1, 2, …`
non-`>` characters, shortest extension first (Python's `[^>]*?`). -/
def lazyAux (f : Str → Option Nat) : Str → Option Nat
  | [] => f []
  | c :: t =>
    match f (c :: t) with
    | some n => some n
    | none => if c = '>' then none else (lazyAux f t).map (· + 1)

/-- `reMatch pat s = some n` iff the pattern matches a prefix of `s`, and `n` is
the length of the match that Python's backtracking engine produces (lazy
quantifiers prefer the shortest extension, resolved left to right). -/
def reMatch : List RItem → Str → Option Nat
  | [], _ => some 0
  | .lit l :: r, s =>
    if l.isPrefixOf s then (reMatch r (s.drop l.length)).map (· + l.length) else none
  | .quote :: r, s =>
    match s with
    | [] => none
    | c :: t => if c = dqc ∨ c = sqc then (reMatch r t).map (· + 1) else none
  | .star :: r, s => lazyAux (reMatch r) s
  | .plus :: r, s =>
    match s with
    | [] => none
    | c :: t => if c = '>' then none else (lazyAux (reMatch r) t).map (· + 1)

/-- `re.search`: the leftmost match, as a pair (start position, length). -/
def reFindAux (pat : List RItem) : Str → Option (Nat × Nat)
  | [] => (reMatch pat []).map (fun n => (0, n))
  | c :: t =>
    match reMatch pat (c :: t) with
    | some n => some (0, n)
    | none => (reFindAux pat t).map (fun pr => (pr.1 + 1, pr.2))

/-- Fueled worker for `reCount`. -/
def reCountAux (pat : List RItem) : Nat → Str → Nat
  | 0, _ => 0
  | fuel + 1, s =>
    match reFindAux pat s with
    | none => 0
    | some (i, n) => 1 + reCountAux pat fuel (s.drop (i + max n 1))

/-- `len(re.findall(pat, s))`: number of non-overlapping, left-to-right matches.
All patterns of the source match at least one character, so the fuel
`s.length + 1` is never exhausted on them. -/
def reCount (pat : List RItem) (s : Str) : Nat := reCountAux pat (s.length + 1) s

/-- Fueled worker for `reSubAll`. -/
def reSubAllAux (pat : List RItem) (f : Str → Str) : Nat → Str → Str
  | 0, s => s
  | fuel + 1, s =>
    match reFindAux pat s with
    | none => s
    | some (i, n) =>
      s.take i ++ f ((s.drop i).take n) ++ reSubAllAux pat f fuel (s.drop (i + max n 1))

/-- `re.sub(pat, f, s)`: replace every non-overlapping, left-to-right match
region `m` by `f m`. -/
def reSubAll (pat : List RItem) (f : Str → Str) (s : Str) : Str :=
  reSubAllAux pat f (s.length + 1) s

/-! ### `update_svg_id` -/

/-- The literal `id=<q>val<q>` for a quote character `q`. -/
def mkId (q : Char) (v : Str) : Str := "id=".data ++ q :: (v ++ [q])

/-- The literal `class=<q>tkk<q>` for a quote character `q`. -/
def classLit (q : Char) : Str := "class=".data ++ q :: ("tkk".data ++ [q])

/-- Pattern `<[^>]*?id=<q>old<q>[^>]*?class=<q>tkk<q>[^>]*?>`. -/
def patIdClass (q : Char) (old : Str) : List RItem :=
  [.lit "<".data, .star, .lit (mkId q old), .star, .lit (classLit q), .star, .lit ">".data]

/-- Pattern `<[^>]*?class=<q>tkk<q>[^>]*?id=<q>old<q>[^>]*?>`. -/
def patClassId (q : Char) (old : Str) : List RItem :=
  [.lit "<".data, .star, .lit (classLit q), .star, .lit (mkId q old), .star, .lit ">".data]

/-- The four patterns of `update_svg_id`, in source order: double quotes
(id-then-class, class-then-id), then single quotes (same two orders). -/
def updatePatterns (old : Str) : List (List RItem) :=
  [patIdClass dqc old, patClassId dqc old, patIdClass sqc old, patClassId sqc old]

/-- `total_tkk_matches`: the sum of the numbers of matches of the four
patterns, computed on the unmodified input. -/
def tkkCount (s old : Str) : Nat :=
  ((updatePatterns old).map (fun p => reCount p s)).sum

/-- The `replace_id` callback: inside a matched tag, replace every occurrence
of `id="old"` by `id="new"` and every occurrence of `id='old'` by `id='new'`. -/
def replaceId (old new : Str) (tag : Str) : Str :=
  strReplace (strReplace tag (mkId dqc old) (mkId dqc new)) (mkId sqc old) (mkId sqc new)

/-- The error message `Multiple class='tkk' elements found with ID '<old>'
(<n> occurrences)`. -/
def occurrencesMsg (old : Str) (n : Nat) : Str :=
  "Multiple class=".data ++ sqc :: ("tkk".data ++ sqc :: (" elements found with ID ".data
    ++ sqc :: (old ++ sqc :: (" (".data ++ (toString n).data ++ " occurrences)".data))))

/-- `update_svg_id`: count the qualifying matches for `old_val` first; if more
than one, return the content unchanged with an error message, otherwise apply
the four substitutions in order. -/
def update_svg_id (svg_content old_val new_val : Str) : Str × Option Str :=
  if tkkCount svg_content old_val > 1 then
    (svg_content, some (occurrencesMsg old_val (tkkCount svg_content old_val)))
  else
    ((updatePatterns old_val).foldl
      (fun c p => reSubAll p (replaceId old_val new_val) c) svg_content, none)

/-! ### `extract_moldenhauer_number` -/

def headDigit (s : Str) : Bool :=
  match s with
  | [] => false
  | c :: _ => c.isDigit

/-- The maximal digit run at the head of `s` (the greedy `\d+`). -/
def digitRun (s : Str) : Str := s.takeWhile (fun c => c.isDigit)

/-- The `_?(\d+)` part of the pattern, with the greedy option backtracking. -/
def matchUD (s : Str) : Option Str :=
  match s with
  | '_' :: r =>
    if headDigit r then some (digitRun r)
    else if headDigit s then some (digitRun s) else none
  | _ => if headDigit s then some (digitRun s) else none

/-- The `x?_?(\d+)` part of the pattern (after the literal `M`), with the
greedy options backtracking. -/
def matchAfterM (s : Str) : Option Str :=
  match s with
  | 'x' :: r =>
    match matchUD r with
    | some d => some d
    | none => matchUD s
  | _ => matchUD s

/-- Left-to-right scan of `re.search(r'Mx?_?(\d+)', text)`. -/
def extractScanMold : Str → Str
  | [] => []
  | c :: rest =>
    if c = 'M' then
      match matchAfterM rest with
      | some d => d
      | none => extractScanMold rest
    else extractScanMold rest

/-- `extract_moldenhauer_number`: the first digit run following an `M`, an
optional `x` and an optional `_`, or the empty string.  (The Python function
first coerces its argument with `str(…)`; the embedding takes the resulting
string.) -/
def extract_moldenhauer_number (text : Str) : Str := extractScanMold text

/-! ### `get_relevant_svgs` -/

/-- Scan of `re.search(r'TF(\d+)', new_id)`: the digit run of the first `TF`
immediately followed by a digit. -/
def tfScan : Str → Option Str
  | [] => none
  | 'T' :: rest =>
    match rest with
    | 'F' :: r2 => if headDigit r2 then some (digitRun r2) else tfScan rest
    | _ => tfScan rest
  | _ :: rest => tfScan rest

/-- Fueled worker consuming the greedy `(?:_\d+)*` extension of a sketch token. -/
def skExtAux : Nat → Str → Str
  | 0, _ => []
  | fuel + 1, s =>
    match s with
    | '_' :: r =>
      if headDigit r then '_' :: (digitRun r ++ skExtAux fuel (r.drop (digitRun r).length))
      else []
    | _ => []

/-- Scan of `re.search(r'(Sk\d+(?:_\d+)*)', new_id)`: the first maximal sketch
token `Sk<digits>(_<digits>)*`. -/
def skScan : Str → Option Str
  | [] => none
  | 'S' :: 'k' :: r2 =>
    if headDigit r2 then
      some ('S' :: 'k' :: (digitRun r2 ++ skExtAux r2.length (r2.drop (digitRun r2).length)))
    else skScan ('k' :: r2)
  | _ :: rest => skScan rest

/-- Does the next character at offset `n` fail to be an underscore
(the `(?!_)` lookahead)? -/
def notUnderscoreAfter (s : Str) (n : Nat) : Bool :=
  match (s.drop n).head? with
  | some c => c ≠ '_'
  | none => true

/-- Scan of `re.search(escape(tok) + r'(?!_)', f)`: some occurrence of `tok`
in `f` that is not immediately followed by an underscore. -/
def skFileSearch (tok : Str) : Str → Bool
  | [] => tok.isPrefixOf [] && notUnderscoreAfter [] tok.length
  | c :: t =>
    (tok.isPrefixOf (c :: t) && notUnderscoreAfter (c :: t) tok.length)
      || skFileSearch tok t

/-- `get_relevant_svgs`: the relevance filter on filenames. -/
def get_relevant_svgs (new_id : Str) (all_svg_files : List Str)
    (current_main_number : Str) : List Str :=
  if containsSub new_id "SkRT".data then
    all_svg_files.filter (fun f =>
      (extract_moldenhauer_number f == current_main_number)
        && containsSub f "Reihentabelle".data)
  else
    let candidate_svg_files := all_svg_files.filter (fun f =>
      (extract_moldenhauer_number f == current_main_number)
        && !(containsSub f "Reihentabelle".data))
    match tfScan new_id with
    | some tf_number =>
      candidate_svg_files.filter (fun f => containsSub f ("Textfassung".data ++ tf_number))
    | none =>
      match skScan new_id with
      | some sk_identifier => candidate_svg_files.filter (fun f => skFileSearch sk_identifier f)
      | none => candidate_svg_files

/-! ### The orchestration layer

Caching model: the Python script keeps a transient cache `loaded_svg_texts`
(flushed to disk at entry boundaries and at the end) and an accumulating cache
`final_svg_cache` holding every file ever loaded.  Because every mutation is
written to the cached entry and every cache eviction is preceded by a flush,
the content observed for a file at any point equals the latest content, so the
embedding models disk and transient cache together as one association list
`files`, and tracks the accumulating cache as the list `loaded` of filenames
ever loaded (whose final contents are those in `files`). -/

abbrev SvgFiles := List (Str × Str)

/-- Content of a named file (the loader; missing files do not occur in runs,
they would raise in Python). -/
def getContent (files : SvgFiles) (name : Str) : Str :=
  match files.find? (fun pr => pr.1 == name) with
  | some pr => pr.2
  | none => []

/-- Write-back of a named file's content. -/
def setContent (files : SvgFiles) (name content : Str) : SvgFiles :=
  files.map (fun pr => if pr.1 == name then (pr.1, content) else pr)

abbrev IdMap := List (Str × Str)

/-- Dictionary lookup in the per-entry rename map. -/
def lookupId (m : IdMap) (k : Str) : Option Str :=
  match m.find? (fun pr => pr.1 == k) with
  | some pr => some pr.2
  | none => none

/-- One block comment; only the `svgGroupId` field is ever read or written. -/
structure BComment where
  svgGroupId : Option Str
deriving DecidableEq

/-- State threaded through a run: file contents plus the names ever loaded
(the accumulating cache keys, in first-load order, without duplicates). -/
structure ProcState where
  files : SvgFiles
  loaded : List Str
deriving DecidableEq

/-- Record a filename in the accumulating cache key list. -/
def insertLoaded (loaded : List Str) (n : Str) : List Str :=
  if loaded.any (fun x => x == n) then loaded else loaded ++ [n]

/-- First alternative of the search pattern of `process_block_comment`
(line 174): `<[^>]+?id=["\x27]old["\x27][^>]+?class=["\x27]tkk["\x27]`. -/
def findPatA (old : Str) : List RItem :=
  [.lit "<".data, .plus, .lit "id=".data, .quote, .lit old, .quote,
   .plus, .lit "class=".data, .quote, .lit "tkk".data, .quote]

/-- Second alternative: `<[^>]+?class=["\x27]tkk["\x27][^>]+?id=["\x27]old["\x27][^>]*?>`. -/
def findPatB (old : Str) : List RItem :=
  [.lit "<".data, .plus, .lit "class=".data, .quote, .lit "tkk".data, .quote,
   .plus, .lit "id=".data, .quote, .lit old, .quote, .star, .lit ">".data]

/-- `re.search` of the alternation of the two alternatives, as a boolean. -/
def svgHasOldId (content old : Str) : Bool :=
  (reFindAux (findPatA old) content).isSome || (reFindAux (findPatB old) content).isSome

/-- The search loop of `process_block_comment`: walk the relevant files in
order (loading each on access) until one matches the search pattern for
`old`; return the found filename and the updated loaded-name list. -/
def scanForOld (relevant : List Str) (files : SvgFiles) (old : Str)
    (loaded : List Str) : Option Str × List Str :=
  match relevant with
  | [] => (none, loaded)
  | fn :: rest =>
    let loaded' := insertLoaded loaded fn
    if svgHasOldId (getContent files fn) old then (some fn, loaded')
    else scanForOld rest files old loaded'

/-- `process_block_comment`: skip empty/`TODO` references; search the relevant
files for the old value; probe `update_svg_id` with the throwaway target
`temp_id`; on a passed probe assign (or reuse) the sequential new identifier,
rewrite the block reference and the file content.  Returns the updated block,
state, rename map and the success flag. -/
def process_block_comment (b : BComment) (relevant : List Str) (st : ProcState)
    (id_mapping : IdMap) (pfx : Str) : BComment × ProcState × IdMap × Bool :=
  match b.svgGroupId with
  | none => (b, st, id_mapping, true)
  | some old_val =>
    if old_val = [] ∨ old_val = "TODO".data then (b, st, id_mapping, true)
    else
      match scanForOld relevant st.files old_val st.loaded with
      | (none, loaded') => (b, ⟨st.files, loaded'⟩, id_mapping, false)
      | (some fn, loaded') =>
        let content := getContent st.files fn
        match (update_svg_id content old_val "temp_id".data).2 with
        | some _ => (b, ⟨st.files, loaded'⟩, id_mapping, false)
        | none =>
          let m := if (lookupId id_mapping old_val).isNone
            then id_mapping ++ [(old_val, pfx ++ (toString (id_mapping.length + 1)).data)]
            else id_mapping
          let new_val := (lookupId m old_val).getD []
          let newContent := (update_svg_id content old_val new_val).1
          (⟨some new_val⟩, ⟨setContent st.files fn newContent, loaded'⟩, m, true)

/-- Process the blocks of one comment group in order, threading state and the
per-entry rename map (the per-block success flag is ignored by the caller). -/
def processBlockList (blocks : List BComment) (relevant : List Str)
    (st : ProcState) (m : IdMap) (pfx : Str) : List BComment × ProcState × IdMap :=
  match blocks with
  | [] => ([], st, m)
  | b :: bs =>
    let r := process_block_comment b relevant st m pfx
    let rest := processBlockList bs relevant r.2.1 r.2.2.1 pfx
    (r.1 :: rest.1, rest.2)

/-- Process the comment groups of one entry in order. -/
def processGroups (groups : List (List BComment)) (relevant : List Str)
    (st : ProcState) (m : IdMap) (pfx : Str) :
    List (List BComment) × ProcState × IdMap :=
  match groups with
  | [] => ([], st, m)
  | g :: gs =>
    let r := processBlockList g relevant st m pfx
    let rest := processGroups gs relevant r.2.1 r.2.2 pfx
    (r.1 :: rest.1, rest.2)

/-- One textcritics entry: its identifier (`''` when absent) and its comment
groups (`commentary.comments[*].blockComments`). -/
structure Entry where
  id : Str
  comments : List (List BComment)
deriving DecidableEq

/-- `process_entry`: with a nonempty identifier, compute the relevant files
via the relevance filter; otherwise the relevant set is empty.  A fresh empty
rename map is used for the entry either way, and all blocks are visited. -/
def process_entry (e : Entry) (all_svg_files : List Str) (st : ProcState)
    (pfx : Str) : Entry × ProcState :=
  let relevant :=
    if e.id ≠ [] then
      get_relevant_svgs e.id all_svg_files (extract_moldenhauer_number e.id)
    else []
  let r := processGroups e.comments relevant st [] pfx
  (⟨e.id, r.1⟩, r.2.1)

/-- Process all entries in document order. -/
def processEntries (entries : List Entry) (all_svg_files : List Str)
    (st : ProcState) (pfx : Str) : List Entry × ProcState :=
  match entries with
  | [] => ([], st)
  | e :: es =>
    let r := process_entry e all_svg_files st pfx
    let rest := processEntries es all_svg_files r.2 pfx
    (r.1 :: rest.1, rest.2)

/-! ### `display_uncertainties` (validation report) -/

def startsWith (s pfx : Str) : Bool := pfx.isPrefixOf s

/-- JSON-side issues: blocks whose reference is nonempty, not `TODO` and does
not start with the prefix. -/
def blockIssue (b : BComment) (pfx : Str) : Bool :=
  match b.svgGroupId with
  | none => false
  | some v => !(v == []) && !(startsWith v pfx) && !(v == "TODO".data)

def jsonIssueCount (entries : List Entry) (pfx : Str) : Nat :=
  (entries.map (fun e =>
    (e.comments.map (fun g => (g.filter (fun b => blockIssue b pfx)).length)).sum)).sum

/-- Capture-aware continuation combinators for the validation regex
(line 76 of the source), which has one capture group per alternative.
Each combinator returns the consumed length and the captured id. -/
def lazyAuxC (f : Str → Option (Nat × Str)) : Str → Option (Nat × Str)
  | [] => f []
  | c :: t =>
    match f (c :: t) with
    | some r => some r
    | none => if c = '>' then none else (lazyAuxC f t).map (fun pr => (pr.1 + 1, pr.2))

def litThen (l : Str) (f : Str → Option (Nat × Str)) (s : Str) : Option (Nat × Str) :=
  if l.isPrefixOf s then (f (s.drop l.length)).map (fun pr => (pr.1 + l.length, pr.2))
  else none

def quoteThen (f : Str → Option (Nat × Str)) (s : Str) : Option (Nat × Str) :=
  match s with
  | [] => none
  | c :: t => if c = dqc ∨ c = sqc then (f t).map (fun pr => (pr.1 + 1, pr.2)) else none

def plusThen (f : Str → Option (Nat × Str)) (s : Str) : Option (Nat × Str) :=
  match s with
  | [] => none
  | c :: t => if c = '>' then none else (lazyAuxC f t).map (fun pr => (pr.1 + 1, pr.2))

/-- The greedy capture `([^"\x27]+)["\x27]` followed by a plain continuation.
Shrinking the greedy run can never help: the character at the shortened
boundary is by construction not a quote, so only the maximal run is viable. -/
def captureThen (k : Str → Option Nat) (s : Str) : Option (Nat × Str) :=
  let run := s.takeWhile (fun c => ¬ (c = dqc ∨ c = sqc))
  if run = [] then none
  else
    match (s.drop run.length).head? with
    | some c =>
      if c = dqc ∨ c = sqc then
        (k (s.drop (run.length + 1))).map (fun n => (run.length + 1 + n, run))
      else none
    | none => none

/-- First alternative of the validation regex:
`<[^>]+?class=["\x27]tkk["\x27][^>]+?id=["\x27]([^"\x27]+)["\x27]`. -/
def valAlt1 : Str → Option (Nat × Str) :=
  litThen "<".data (plusThen (litThen "class=".data (quoteThen (litThen "tkk".data
    (quoteThen (plusThen (litThen "id=".data (quoteThen
      (captureThen (fun _ => some 0))))))))))

/-- Second alternative:
`<[^>]+?id=["\x27]([^"\x27]+)["\x27][^>]+?class=["\x27]tkk["\x27]`. -/
def valAlt2 : Str → Option (Nat × Str) :=
  litThen "<".data (plusThen (litThen "id=".data (quoteThen (captureThen
    (reMatch [.plus, .lit "class=".data, .quote, .lit "tkk".data, .quote])))))

/-- Fueled worker for `valFindall` (first alternative preferred at each
position, non-overlapping continuation after each match). -/
def valFindAux : Nat → Str → List Str
  | 0, _ => []
  | _, [] => []
  | fuel + 1, c :: t =>
    match valAlt1 (c :: t) with
    | some (n, v) => v :: valFindAux fuel ((c :: t).drop (max n 1))
    | none =>
      match valAlt2 (c :: t) with
      | some (n, v) => v :: valFindAux fuel ((c :: t).drop (max n 1))
      | none => valFindAux fuel t

/-- `re.findall` of the validation regex: the captured ids of all `tkk`
elements, left to right. -/
def valFindall (s : Str) : List Str := valFindAux s.length s

/-- SVG-side issues: captured `tkk` ids not starting with the prefix, summed
over the accumulating cache. -/
def svgIssueCount (loadedNames : List Str) (files : SvgFiles) (pfx : Str) : Nat :=
  (loadedNames.map (fun n =>
    ((valFindall (getContent files n)).filter (fun v => !(startsWith v pfx))).length)).sum

/-- `errors_found` of `display_uncertainties`. -/
def issueCount (entries : List Entry) (pfx : Str) (loadedNames : List Str)
    (files : SvgFiles) : Nat :=
  jsonIssueCount entries pfx + svgIssueCount loadedNames files pfx

/-! ### `load_and_validate_inputs` and `process_tkk_ids`

The filesystem is modelled by explicit existence/listability flags together
with the already-parsed JSON data and the folder listing; an error result is
returned before anything is processed, so an aborted run produces no mutated
data or file contents by construction. -/

inductive LoadError where
  | fileNotFound (msg : Str)
  | permissionError (msg : Str)
  | valueError (msg : Str)
deriving DecidableEq

structure FileSystem where
  json_path_exists : Bool
  svg_folder_exists : Bool
  svg_folder_listable : Bool
  textcritics : List Entry
  folder_files : List Str
  svg_contents : SvgFiles
deriving DecidableEq

def lowerStr (s : Str) : Str := s.map Char.toLower

/-- `f.lower().endswith('.svg')`. -/
def endsWithSvg (f : Str) : Bool := ".svg".data.isSuffixOf (lowerStr f)

/-- `load_and_validate_inputs`: existence checks, then the folder listing
filtered to SVG files, with the three distinct fatal failures of the source. -/
def load_and_validate_inputs (fs : FileSystem) (json_path svg_folder : Str) :
    Except LoadError (List Entry × List Str) :=
  if fs.json_path_exists = false then
    .error (.fileNotFound ("JSON file not found: ".data ++ json_path))
  else if fs.svg_folder_exists = false then
    .error (.fileNotFound ("SVG folder not found: ".data ++ svg_folder))
  else if fs.svg_folder_listable = false then
    .error (.permissionError ("Cannot list contents of SVG folder: ".data ++ svg_folder))
  else
    let all_svg_files := fs.folder_files.filter endsWithSvg
    if all_svg_files = [] then
      .error (.valueError ("No SVG files found in folder: ".data ++ svg_folder))
    else .ok (fs.textcritics, all_svg_files)

/-- `process_tkk_ids`: load and validate, then process every entry; on
completion the success flag is `true` unconditionally. -/
def process_tkk_ids (fs : FileSystem) (json_path svg_folder : Str) (pfx : Str) :
    Except LoadError (List Entry × ProcState × Bool) :=
  match load_and_validate_inputs fs json_path svg_folder with
  | .error e => .error e
  | .ok (data, all_svg_files) =>
    let r := processEntries data all_svg_files ⟨fs.svg_contents, []⟩ pfx
    .ok (r.1, r.2, true)

instance {ε α : Type} [DecidableEq ε] [DecidableEq α] : DecidableEq (Except ε α)
  | .error a, .error b =>
    if h : a = b then .isTrue (by rw [h]) else .isFalse (by intro hc; cases hc; exact h rfl)
  | .ok a, .ok b =>
    if h : a = b then .isTrue (by rw [h]) else .isFalse (by intro hc; cases hc; exact h rfl)
  | .error _, .ok _ => .isFalse (by intro hc; cases hc)
  | .ok _, .error _ => .isFalse (by intro hc; cases hc)

/-! ### Basic facts about `update_svg_id` and `process_block_comment` -/

theorem update_svg_id_of_gt (c o n : Str) (h : 1 < tkkCount c o) :
    update_svg_id c o n = (c, some (occurrencesMsg o (tkkCount c o))) := by
  unfold update_svg_id
  rw [if_pos h]

theorem update_svg_id_snd_of_le (c o n : Str) (h : ¬ 1 < tkkCount c o) :
    (update_svg_id c o n).2 = none := by
  unfold update_svg_id
  rw [if_neg h]

theorem update_svg_id_snd_none_iff (c o n : Str) :
    (update_svg_id c o n).2 = none ↔ ¬ 1 < tkkCount c o := by
  constructor
  · intro h hgt
    rw [update_svg_id_of_gt c o n hgt] at h
    exact Option.noConfusion h
  · exact update_svg_id_snd_of_le c o n

theorem scanForOld_mem : ∀ (relevant : List Str) (files : SvgFiles) (old : Str)
    (loaded l : List Str) (fn : Str),
    scanForOld relevant files old loaded = (some fn, l) → fn ∈ relevant := by
  intro relevant
  induction relevant with
  | nil => intro files old loaded l fn h; exact absurd h (by simp [scanForOld])
  | cons f rest ih =>
    intro files old loaded l fn h
    unfold scanForOld at h
    by_cases hf : svgHasOldId (getContent files f) old = true
    · rw [if_pos hf] at h
      cases h
      exact List.mem_cons_self f rest
    · rw [if_neg hf] at h
      exact List.mem_cons_of_mem f (ih files old _ l fn h)

/-- C1.  If the number of qualifying `class='tkk'` matches for the old value in
a markup text exceeds one, `update_svg_id` returns the text unchanged together
with the error message naming the old identifier and the exact occurrence
count, and `process_block_comment` (which probes exactly this condition before
rewriting) leaves the block's `svgGroupId`, the file contents and the rename
map unchanged and reports failure. -/
theorem C1_ambiguity_guard (content old new : Str) (h : 1 < tkkCount content old) :
    update_svg_id content old new = (content, some (occurrencesMsg old (tkkCount content old)))
    ∧ ∀ (g : Option Str) (relevant : List Str) (st : ProcState) (m : IdMap) (pfx : Str),
        g = some old → old ≠ [] → old ≠ "TODO".data →
        (∀ fn ∈ relevant, getContent st.files fn = content) →
        ∃ loaded', process_block_comment ⟨g⟩ relevant st m pfx
          = (⟨g⟩, ⟨st.files, loaded'⟩, m, false) := by
  refine ⟨update_svg_id_of_gt content old new h, ?_⟩
  intro g relevant st m pfx hg hne hnt hcontent
  subst hg
  show ∃ loaded', process_block_comment ⟨some old⟩ relevant st m pfx = _
  unfold process_block_comment
  simp only
  rw [if_neg (by simp [hne, hnt])]
  split
  · exact ⟨_, rfl⟩
  · rename_i fn loaded' hscan
    have hfn : fn ∈ relevant := scanForOld_mem relevant st.files old st.loaded loaded' fn hscan
    have hc : getContent st.files fn = content := hcontent fn hfn
    rw [hc, update_svg_id_of_gt content old _ h]
    exact ⟨loaded', rfl⟩

/-- C1, witness: a text with two double-quoted `tkk` elements carrying the id
`z` is rejected with the message reporting 2 occurrences, and the caller
leaves everything unchanged. -/
theorem C1_ambiguity_guard_witness :
    update_svg_id "<a class=\"tkk\" id=\"z\"/><b class=\"tkk\" id=\"z\"/>".data "z".data "w".data
      = ("<a class=\"tkk\" id=\"z\"/><b class=\"tkk\" id=\"z\"/>".data,
         some (occurrencesMsg "z".data 2))
    ∧ ∃ loaded', process_block_comment ⟨some "z".data⟩ ["f.svg".data]
        ⟨[("f.svg".data, "<a class=\"tkk\" id=\"z\"/><b class=\"tkk\" id=\"z\"/>".data)], []⟩
        [] "g-tkk-".data
      = (⟨some "z".data⟩,
         ⟨[("f.svg".data, "<a class=\"tkk\" id=\"z\"/><b class=\"tkk\" id=\"z\"/>".data)], loaded'⟩,
         [], false) := by
  have h2 : tkkCount "<a class=\"tkk\" id=\"z\"/><b class=\"tkk\" id=\"z\"/>".data "z".data = 2 := by
    decide
  have h := C1_ambiguity_guard
    "<a class=\"tkk\" id=\"z\"/><b class=\"tkk\" id=\"z\"/>".data "z".data "w".data
    (by rw [h2]; decide)
  refine ⟨by rw [h.1, h2], ?_⟩
  exact h.2 (some "z".data) ["f.svg".data]
    ⟨[("f.svg".data, "<a class=\"tkk\" id=\"z\"/><b class=\"tkk\" id=\"z\"/>".data)], []⟩
    [] "g-tkk-".data rfl (by decide) (by decide) (by decide)

/-- C10.  The error decision of `update_svg_id` depends only on the text and
the old value, never on the replacement value: whenever the throwaway probe
returns no error, the real rewrite on the same text returns no error either. -/
theorem C10_probe_implies_rewrite (content old probe_val real_val : Str)
    (h : (update_svg_id content old probe_val).2 = none) :
    (update_svg_id content old real_val).2 = none :=
  update_svg_id_snd_of_le content old real_val
    ((update_svg_id_snd_none_iff content old probe_val).mp h)

/-- C10, witness: the probe with `temp_id` passes on a one-element text, hence
so does the rewrite with `g-tkk-1`. -/
theorem C10_probe_implies_rewrite_witness :
    (update_svg_id "<g class=\"tkk\" id=\"z\"/>".data "z".data "temp_id".data).2 = none
    ∧ (update_svg_id "<g class=\"tkk\" id=\"z\"/>".data "z".data "g-tkk-1".data).2 = none :=
  ⟨by decide,
   C10_probe_implies_rewrite "<g class=\"tkk\" id=\"z\"/>".data "z".data
     "temp_id".data "g-tkk-1".data (by decide)⟩

/-- C9.  The three fatal input conditions each abort the run with their own
named failure (not-found vs. permission vs. empty-directory), before any entry
is processed (the error is returned directly by the input-validation step, so
no mutated data or file content is produced); when all three checks pass the
run completes and its success flag is `true` — per-block failures are ignored
by the entry loop and never change this flag. -/
theorem C9_fatal_input_errors (fs : FileSystem) (jp sp pfx : Str) :
    (fs.json_path_exists = false →
      process_tkk_ids fs jp sp pfx
        = .error (.fileNotFound ("JSON file not found: ".data ++ jp)))
    ∧ (fs.json_path_exists = true → fs.svg_folder_exists = false →
      process_tkk_ids fs jp sp pfx
        = .error (.fileNotFound ("SVG folder not found: ".data ++ sp)))
    ∧ (fs.json_path_exists = true → fs.svg_folder_exists = true →
        fs.svg_folder_listable = false →
      process_tkk_ids fs jp sp pfx
        = .error (.permissionError ("Cannot list contents of SVG folder: ".data ++ sp)))
    ∧ (fs.json_path_exists = true → fs.svg_folder_exists = true →
        fs.svg_folder_listable = true → fs.folder_files.filter endsWithSvg = [] →
      process_tkk_ids fs jp sp pfx
        = .error (.valueError ("No SVG files found in folder: ".data ++ sp)))
    ∧ (fs.json_path_exists = true → fs.svg_folder_exists = true →
        fs.svg_folder_listable = true → fs.folder_files.filter endsWithSvg ≠ [] →
      ∃ d st, process_tkk_ids fs jp sp pfx = .ok (d, st, true))
    ∧ (∀ d st b, process_tkk_ids fs jp sp pfx = .ok (d, st, b) → b = true)
    ∧ (∀ m1 m2 : Str, LoadError.fileNotFound m1 ≠ LoadError.permissionError m2
        ∧ LoadError.fileNotFound m1 ≠ LoadError.valueError m2
        ∧ LoadError.permissionError m1 ≠ LoadError.valueError m2) := by
  refine ⟨?_, ?_, ?_, ?_, ?_, ?_, ?_⟩
  · intro h1
    simp [process_tkk_ids, load_and_validate_inputs, h1]
  · intro h1 h2
    simp [process_tkk_ids, load_and_validate_inputs, h1, h2]
  · intro h1 h2 h3
    simp [process_tkk_ids, load_and_validate_inputs, h1, h2, h3]
  · intro h1 h2 h3 h4
    simp [process_tkk_ids, load_and_validate_inputs, h1, h2, h3, h4]
  · intro h1 h2 h3 h4
    refine ⟨(processEntries fs.textcritics (fs.folder_files.filter endsWithSvg)
        ⟨fs.svg_contents, []⟩ pfx).1,
      (processEntries fs.textcritics (fs.folder_files.filter endsWithSvg)
        ⟨fs.svg_contents, []⟩ pfx).2, ?_⟩
    simp [process_tkk_ids, load_and_validate_inputs, h1, h2, h3, h4]
  · intro d st b h
    unfold process_tkk_ids at h
    rcases hl : load_and_validate_inputs fs jp sp with e | ok
    · rw [hl] at h; exact absurd h (by simp)
    · rw [hl] at h
      cases h
      rfl
  · intro m1 m2
    refine ⟨?_, ?_, ?_⟩ <;> intro hc <;> cases hc

/-- C9, witness: concrete filesystems exercising every branch — each missing
or empty input aborts with its own named failure, and a well-formed input
completes with the success flag `true`. -/
theorem C9_fatal_input_errors_witness :
    process_tkk_ids ⟨false, true, true, [], [], []⟩ "j".data "d".data "p".data
      = .error (.fileNotFound ("JSON file not found: ".data ++ "j".data))
    ∧ process_tkk_ids ⟨true, false, true, [], [], []⟩ "j".data "d".data "p".data
      = .error (.fileNotFound ("SVG folder not found: ".data ++ "d".data))
    ∧ process_tkk_ids ⟨true, true, false, [], [], []⟩ "j".data "d".data "p".data
      = .error (.permissionError ("Cannot list contents of SVG folder: ".data ++ "d".data))
    ∧ process_tkk_ids ⟨true, true, true, [], ["a.txt".data], []⟩ "j".data "d".data "p".data
      = .error (.valueError ("No SVG files found in folder: ".data ++ "d".data))
    ∧ ∃ d st, process_tkk_ids ⟨true, true, true, [], ["a.svg".data], []⟩
        "j".data "d".data "p".data = .ok (d, st, true) := by
  refine ⟨?_, ?_, ?_, ?_, ?_⟩
  · exact (C9_fatal_input_errors ⟨false, true, true, [], [], []⟩
      "j".data "d".data "p".data).1 rfl
  · exact (C9_fatal_input_errors ⟨true, false, true, [], [], []⟩
      "j".data "d".data "p".data).2.1 rfl rfl
  · exact (C9_fatal_input_errors ⟨true, true, false, [], [], []⟩
      "j".data "d".data "p".data).2.2.1 rfl rfl rfl
  · exact (C9_fatal_input_errors ⟨true, true, true, [], ["a.txt".data], []⟩
      "j".data "d".data "p".data).2.2.2.1 rfl rfl rfl (by decide)
  · exact (C9_fatal_input_errors ⟨true, true, true, [], ["a.svg".data], []⟩
      "j".data "d".data "p".data).2.2.2.2.1 rfl rfl rfl (by decide)

/-! ### C3: the sequence invariant of the rename map -/

/-- The gapless value sequence `prefix+"1", …, prefix+"k"`. -/
def seqValues (pfx : Str) (k : Nat) : List Str :=
  (List.range k).map (fun i => pfx ++ (toString (i + 1)).data)

/-- The number of distinct non-`TODO`, nonempty old identifiers among a list
of blocks (the `k` of the claim as stated). -/
def distinctOldCount (blocks : List BComment) : Nat :=
  (((blocks.filterMap (fun b => b.svgGroupId)).filter
    (fun v => !(v == ([] : Str)) && !(v == "TODO".data))).dedup).length

/-- Each block step either leaves the rename map unchanged or appends exactly
one entry for a fresh, non-skipped old identifier, whose value is
`prefix + (previous size + 1)`. -/
theorem process_block_comment_map (b : BComment) (relevant : List Str)
    (st : ProcState) (m : IdMap) (pfx : Str) :
    (process_block_comment b relevant st m pfx).2.2.1 = m
    ∨ ∃ old, b.svgGroupId = some old ∧ old ≠ [] ∧ old ≠ "TODO".data
        ∧ lookupId m old = none
        ∧ (process_block_comment b relevant st m pfx).2.2.1
            = m ++ [(old, pfx ++ (toString (m.length + 1)).data)] := by
  cases b with
  | mk g =>
    cases g with
    | none => exact Or.inl rfl
    | some old =>
      unfold process_block_comment
      simp only
      by_cases hskip : old = [] ∨ old = "TODO".data
      · rw [if_pos hskip]; exact Or.inl rfl
      · rw [if_neg hskip]
        push_neg at hskip
        split
        · exact Or.inl rfl
        · split
          · exact Or.inl rfl
          · by_cases hlk : (lookupId m old).isNone = true
            · refine Or.inr ⟨old, rfl, hskip.1, hskip.2, Option.isNone_iff_eq_none.mp hlk, ?_⟩
              simp only [hlk, if_true]
            · refine Or.inl ?_
              simp [hlk]

theorem lookupId_none_not_mem (m : IdMap) (k : Str) (h : lookupId m k = none) :
    k ∉ m.map Prod.fst := by
  intro hmem
  rcases List.mem_map.mp hmem with ⟨pr, hpr, hfst⟩
  unfold lookupId at h
  rcases hf : m.find? (fun pr => pr.1 == k) with _ | v
  · have := List.find?_eq_none.mp hf pr hpr
    simp [hfst] at this
  · rw [hf] at h
    exact Option.noConfusion h

/-- Invariant preserved by block steps: the values are the gapless sequence,
skip sentinels never occur as keys, and keys are distinct. -/
def goodMap (pfx : Str) (m : IdMap) : Prop :=
  m.map Prod.snd = seqValues pfx m.length
  ∧ (∀ pr ∈ m, pr.1 ≠ [] ∧ pr.1 ≠ "TODO".data)
  ∧ (m.map Prod.fst).Nodup

theorem goodMap_step (b : BComment) (relevant : List Str) (st : ProcState)
    (m : IdMap) (pfx : Str) (h : goodMap pfx m) :
    goodMap pfx ((process_block_comment b relevant st m pfx).2.2.1) := by
  rcases process_block_comment_map b relevant st m pfx with heq | ⟨old, _, hne, hnt, hlk, heq⟩
  · rw [heq]; exact h
  · rw [heq]
    obtain ⟨hval, hmem, hnd⟩ := h
    refine ⟨?_, ?_, ?_⟩
    · rw [List.map_append, hval, List.length_append]
      show _ = seqValues pfx (m.length + 1)
      unfold seqValues
      rw [List.range_succ, List.map_append]
      rfl
    · intro pr hpr
      rcases List.mem_append.mp hpr with hl | hr
      · exact hmem pr hl
      · rcases List.mem_singleton.mp hr with rfl
        exact ⟨hne, hnt⟩
    · rw [List.map_append]
      apply List.Nodup.append hnd (List.nodup_singleton old)
      intro a ha hb
      rcases List.mem_singleton.mp hb with rfl
      exact lookupId_none_not_mem m a hlk ha

theorem goodMap_blockList (blocks : List BComment) (relevant : List Str)
    (st : ProcState) (m : IdMap) (pfx : Str) (h : goodMap pfx m) :
    goodMap pfx ((processBlockList blocks relevant st m pfx).2.2) := by
  induction blocks generalizing st m with
  | nil => exact h
  | cons b bs ih =>
    unfold processBlockList
    exact ih _ _ (goodMap_step b relevant st m pfx h)

theorem goodMap_groups (groups : List (List BComment)) (relevant : List Str)
    (st : ProcState) (m : IdMap) (pfx : Str) (h : goodMap pfx m) :
    goodMap pfx ((processGroups groups relevant st m pfx).2.2) := by
  induction groups generalizing st m with
  | nil => exact h
  | cons g gs ih =>
    unfold processGroups
    exact ih _ _ (goodMap_blockList g relevant st m pfx h)

/-- C3 (amended).  After an entry's blocks are processed, the rename map's
values are exactly the gapless sequence `prefix+"1", …, prefix+"k"` in
insertion order, where `k` is the number of distinct old identifiers that were
actually reconciled (an identifier that is skipped, not found, or ambiguous
enters no mapping and consumes no number); `TODO` and empty references never
appear as keys; keys are distinct, and a block whose old identifier is already
mapped leaves the map unchanged (reusing its value without advancing the
sequence). -/
theorem C3_sequence_invariant (groups : List (List BComment)) (relevant : List Str)
    (st : ProcState) (pfx : Str) :
    (((processGroups groups relevant st [] pfx).2.2).map Prod.snd
        = seqValues pfx ((processGroups groups relevant st [] pfx).2.2).length)
    ∧ (∀ pr ∈ (processGroups groups relevant st [] pfx).2.2,
        pr.1 ≠ [] ∧ pr.1 ≠ "TODO".data)
    ∧ (((processGroups groups relevant st [] pfx).2.2).map Prod.fst).Nodup
    ∧ (∀ (b : BComment) (old v : Str) (st' : ProcState) (m' : IdMap),
        b.svgGroupId = some old → lookupId m' old = some v →
        (process_block_comment b relevant st' m' pfx).2.2.1 = m') := by
  have hg := goodMap_groups groups relevant st [] pfx ⟨rfl, by simp, List.nodup_nil⟩
  refine ⟨hg.1, hg.2.1, hg.2.2, ?_⟩
  intro b old v st' m' hb hlk
  rcases process_block_comment_map b relevant st' m' pfx with heq | ⟨old', hb', _, _, hlk', heq⟩
  · exact heq
  · rw [hb] at hb'
    cases hb'
    rw [hlk] at hlk'
    exact absurd hlk' (by simp)

/-- C3, counterexample to the claim as stated: an entry with a single block
whose old identifier `x` is found in no relevant file (empty relevant set)
enters no mapping, so the set of assigned new identifiers is empty although
the number of distinct non-`TODO`, nonempty old identifiers is 1 and the
claim demands the value set `g-tkk-1`. -/
theorem C3_sequence_invariant_counterexample :
    distinctOldCount [⟨some "x".data⟩] = 1
    ∧ seqValues "g-tkk-".data 1 = ["g-tkk-1".data]
    ∧ ((processGroups [[⟨some "x".data⟩]] [] ⟨[], []⟩ [] "g-tkk-".data).2.2).map Prod.snd = []
    ∧ ((processGroups [[⟨some "x".data⟩]] [] ⟨[], []⟩ [] "g-tkk-".data).2.2).map Prod.snd
        ≠ seqValues "g-tkk-".data (distinctOldCount [⟨some "x".data⟩]) := by
  refine ⟨by decide, by decide, by decide, by decide⟩

/-- C3, witness: a one-block entry whose identifier `a` is found and renamed
to `g-tkk-1` satisfies the sequence invariant, and a block whose identifier is
already mapped leaves the map unchanged. -/
theorem C3_sequence_invariant_witness :
    (((processGroups [[⟨some "a".data⟩]] ["f.svg".data]
        ⟨[("f.svg".data, "<g class=\"tkk\" id=\"a\"/>".data)], []⟩ [] "g-tkk-".data).2.2).map
          Prod.snd
        = seqValues "g-tkk-".data
            ((processGroups [[⟨some "a".data⟩]] ["f.svg".data]
              ⟨[("f.svg".data, "<g class=\"tkk\" id=\"a\"/>".data)], []⟩ [] "g-tkk-".data).2.2).length)
    ∧ (process_block_comment ⟨some "a".data⟩ ["f.svg".data]
        ⟨[("f.svg".data, "<g class=\"tkk\" id=\"a\"/>".data)], []⟩
        [("a".data, "v".data)] "g-tkk-".data).2.2.1 = [("a".data, "v".data)] := by
  refine ⟨(C3_sequence_invariant [[⟨some "a".data⟩]] ["f.svg".data]
      ⟨[("f.svg".data, "<g class=\"tkk\" id=\"a\"/>".data)], []⟩ "g-tkk-".data).1, ?_⟩
  exact (C3_sequence_invariant [[⟨some "a".data⟩]] ["f.svg".data]
      ⟨[("f.svg".data, "<g class=\"tkk\" id=\"a\"/>".data)], []⟩ "g-tkk-".data).2.2.2
    ⟨some "a".data⟩ "a".data "v".data
    ⟨[("f.svg".data, "<g class=\"tkk\" id=\"a\"/>".data)], []⟩
    [("a".data, "v".data)] rfl (by decide)

/-! ### C5: the identifier extractor -/

/-- Is the character at offset `n` a digit? -/
def digitAt (s : Str) (n : Nat) : Bool :=
  match (s.drop n).head? with
  | some c => c.isDigit
  | none => false

/-- A marker occurrence of the shape `pre ++ d` at position `i`, with no
further digit immediately after `d` (so `d` is the maximal digit run). -/
def variantAt (s : Str) (i : Nat) (pre d : Str) : Prop :=
  occAt s (pre ++ d) i ∧ digitAt s (i + pre.length + d.length) = false

/-- Declarative reading of the extractor's pattern: at position `i` the string
carries `M`, optionally `x`, optionally `_`, followed by the maximal nonempty
digit run `d`. -/
def MoldMarker (s : Str) (i : Nat) (d : Str) : Prop :=
  d ≠ [] ∧ (∀ c ∈ d, c.isDigit = true) ∧
    (variantAt s i ['M'] d ∨ variantAt s i ['M', 'x'] d ∨ variantAt s i ['M', '_'] d
      ∨ variantAt s i ['M', 'x', '_'] d)

instance (s : Str) (i : Nat) (d : Str) : Decidable (MoldMarker s i d) := by
  unfold MoldMarker variantAt
  infer_instance

theorem digitAt_cons (c : Char) (s : Str) (n : Nat) :
    digitAt (c :: s) (n + 1) = digitAt s n := rfl

theorem occAt_cons (c : Char) (s L : Str) (i : Nat) :
    occAt (c :: s) L (i + 1) ↔ occAt s L i := Iff.rfl

theorem variantAt_cons (c : Char) (s pre d : Str) (i : Nat) :
    variantAt (c :: s) (i + 1) pre d ↔ variantAt s i pre d := by
  unfold variantAt
  rw [occAt_cons]
  constructor
  · rintro ⟨h1, h2⟩
    refine ⟨h1, ?_⟩
    rw [show i + 1 + pre.length + d.length = (i + pre.length + d.length) + 1 by omega] at h2
    rw [digitAt_cons] at h2
    exact h2
  · rintro ⟨h1, h2⟩
    refine ⟨h1, ?_⟩
    rw [show i + 1 + pre.length + d.length = (i + pre.length + d.length) + 1 by omega,
      digitAt_cons]
    exact h2

theorem moldMarker_cons (c : Char) (s d : Str) (i : Nat) :
    MoldMarker (c :: s) (i + 1) d ↔ MoldMarker s i d := by
  unfold MoldMarker
  rw [variantAt_cons, variantAt_cons, variantAt_cons, variantAt_cons]

theorem moldMarker_head (c : Char) (s d : Str) (h : MoldMarker (c :: s) 0 d) : c = 'M' := by
  obtain ⟨-, -, hv⟩ := h
  have : ∀ pre, pre = ['M'] ∨ pre = ['M', 'x'] ∨ pre = ['M', '_'] ∨ pre = ['M', 'x', '_'] →
      variantAt (c :: s) 0 pre d → c = 'M' := by
    rintro pre hpre ⟨hocc, -⟩
    unfold occAt at hocc
    rcases hpre with rfl | rfl | rfl | rfl <;>
      · simp only [List.drop_zero, List.isPrefixOf_iff_prefix, List.cons_append,
          List.cons_prefix_cons] at hocc
        exact hocc.1.symm
  rcases hv with h | h | h | h
  · exact this ['M'] (Or.inl rfl) h
  · exact this ['M', 'x'] (Or.inr (Or.inl rfl)) h
  · exact this ['M', '_'] (Or.inr (Or.inr (Or.inl rfl))) h
  · exact this ['M', 'x', '_'] (Or.inr (Or.inr (Or.inr rfl))) h

theorem moldMarker_mem_M (s d : Str) (i : Nat) (h : MoldMarker s i d) : 'M' ∈ s := by
  obtain ⟨-, -, hv⟩ := h
  have key : ∀ pre rest, pre = 'M' :: rest → variantAt s i pre d → 'M' ∈ s := by
    rintro pre rest rfl ⟨hocc, -⟩
    unfold occAt at hocc
    rw [List.isPrefixOf_iff_prefix] at hocc
    have hm : 'M' ∈ s.drop i := hocc.subset (by simp)
    exact List.mem_of_mem_drop hm
  rcases hv with h | h | h | h
  · exact key _ _ rfl h
  · exact key _ _ rfl h
  · exact key _ _ rfl h
  · exact key _ _ rfl h

theorem no_marker_of_no_M (s : Str) (h : 'M' ∉ s) : ∀ i d, ¬ MoldMarker s i d :=
  fun i d hm => h (moldMarker_mem_M s d i hm)

/-- The maximal digit prefix is unique: a nonempty all-digit prefix with a
non-digit (or nothing) after it is the `takeWhile` digit run. -/
theorem digitRun_unique (d : Str) : ∀ (r : Str), d ≠ [] → (∀ c ∈ d, c.isDigit = true) →
    d.isPrefixOf r = true → digitAt r d.length = false → digitRun r = d := by
  induction d with
  | nil => intro r h; exact absurd rfl h
  | cons c d' ih =>
    intro r _ hdig hpre hafter
    rcases r with _ | ⟨b, r'⟩
    · simp at hpre
    · rw [List.isPrefixOf_iff_prefix, List.cons_prefix_cons] at hpre
      obtain ⟨rfl, hpre'⟩ := hpre
      have hc : c.isDigit = true := hdig c (by simp)
      unfold digitRun
      rw [List.takeWhile_cons_of_pos hc]
      rcases d' with _ | ⟨e, d''⟩
      · have htw : List.takeWhile (fun c => c.isDigit) r' = [] := by
          rcases r' with _ | ⟨f, r''⟩
          · rfl
          · rw [List.takeWhile_cons_of_neg]
            have := hafter
            simp only [List.length_cons, List.length_nil, digitAt] at this
            simpa using this
        rw [htw]
      · have := ih r' (by simp) (fun x hx => hdig x (List.mem_cons_of_mem c hx))
          (by rwa [List.isPrefixOf_iff_prefix]) (by simpa [digitAt] using hafter)
        rw [show digitRun r' = List.takeWhile (fun c => c.isDigit) r' from rfl] at this
        rw [this]

/-- Past the maximal digit run of `r` there is no further digit. -/
theorem digitAt_digitRun (r : Str) : digitAt r (digitRun r).length = false := by
  induction r with
  | nil => rfl
  | cons c t ih =>
    by_cases hc : c.isDigit = true
    · show digitAt (c :: t) ((List.takeWhile (fun c => c.isDigit) (c :: t)).length) = false
      rw [List.takeWhile_cons_of_pos hc, List.length_cons, digitAt_cons]
      exact ih
    · show digitAt (c :: t) ((List.takeWhile (fun c => c.isDigit) (c :: t)).length) = false
      rw [List.takeWhile_cons_of_neg (by simpa using hc)]
      simpa [digitAt] using hc

/-- The digit run after a verified digit head is a valid maximal run. -/
theorem digitRun_spec (r : Str) (h : headDigit r = true) :
    digitRun r ≠ [] ∧ (∀ c ∈ digitRun r, c.isDigit = true)
      ∧ (digitRun r).isPrefixOf r = true ∧ digitAt r (digitRun r).length = false := by
  refine ⟨?_, ?_, ?_, digitAt_digitRun r⟩
  · rcases r with _ | ⟨c, t⟩
    · exact absurd h (by simp [headDigit])
    · have hc : c.isDigit = true := by simpa [headDigit] using h
      simp [digitRun, List.takeWhile_cons_of_pos hc]
  · intro c hc
    exact List.mem_takeWhile_imp hc
  · rw [List.isPrefixOf_iff_prefix]
    exact List.takeWhile_prefix _

theorem digitAt_add1 (a : Char) (r : Str) (n : Nat) :
    digitAt (a :: r) (n + 1) = digitAt r n := rfl

theorem digitAt_add2 (a b : Char) (r : Str) (n : Nat) :
    digitAt (a :: b :: r) (n + 2) = digitAt r n := rfl

theorem digitAt_add3 (a b c : Char) (r : Str) (n : Nat) :
    digitAt (a :: b :: c :: r) (n + 3) = digitAt r n := rfl

/-- Core equivalence: the marker-body facts pin down the digit run. -/
theorem marker_core_iff (r d : Str) :
    (d ≠ [] ∧ (∀ c ∈ d, c.isDigit = true) ∧ d.isPrefixOf r = true
        ∧ digitAt r d.length = false)
      ↔ (headDigit r = true ∧ d = digitRun r) := by
  constructor
  · rintro ⟨hne, hdig, hpre, haft⟩
    have hh : headDigit r = true := by
      rcases d with _ | ⟨e, d'⟩
      · exact absurd rfl hne
      rcases r with _ | ⟨f, r'⟩
      · simp at hpre
      rw [List.isPrefixOf_iff_prefix, List.cons_prefix_cons] at hpre
      obtain ⟨rfl, -⟩ := hpre
      simpa [headDigit] using hdig e (by simp)
    exact ⟨hh, (digitRun_unique d r hne hdig hpre haft).symm⟩
  · rintro ⟨hh, rfl⟩
    exact digitRun_spec r hh

theorem markerA_iff (r d : Str) :
    MoldMarker ('M' :: 'x' :: '_' :: r) 0 d
      ↔ (d ≠ [] ∧ (∀ c ∈ d, c.isDigit = true) ∧ d.isPrefixOf r = true
          ∧ digitAt r d.length = false) := by
  unfold MoldMarker variantAt occAt
  constructor
  · rintro ⟨hne, hdig, hv⟩
    refine ⟨hne, hdig, ?_⟩
    rcases hv with ⟨h1, h2⟩ | ⟨h1, h2⟩ | ⟨h1, h2⟩ | ⟨h1, h2⟩
    · exfalso
      rcases d with _ | ⟨e, d'⟩
      · exact hne rfl
      simp only [List.drop_zero, List.isPrefixOf_iff_prefix, List.cons_append,
        List.nil_append, List.cons_prefix_cons] at h1
      obtain ⟨-, he, -⟩ := h1
      have := hdig e (by simp)
      rw [he] at this
      exact absurd this (by decide)
    · exfalso
      rcases d with _ | ⟨e, d'⟩
      · exact hne rfl
      simp only [List.drop_zero, List.isPrefixOf_iff_prefix, List.cons_append,
        List.nil_append, List.cons_prefix_cons] at h1
      obtain ⟨-, -, he, -⟩ := h1
      have := hdig e (by simp)
      rw [he] at this
      exact absurd this (by decide)
    · exfalso
      simp only [List.drop_zero, List.isPrefixOf_iff_prefix, List.cons_append,
        List.nil_append, List.cons_prefix_cons] at h1
      obtain ⟨-, he, -⟩ := h1
      exact absurd he (by decide)
    · simp only [List.drop_zero, List.isPrefixOf_iff_prefix, List.cons_append,
        List.nil_append, List.cons_prefix_cons, true_and] at h1
      rw [← List.isPrefixOf_iff_prefix] at h1
      refine ⟨h1, ?_⟩
      rw [show 0 + (['M', 'x', '_'] : Str).length + d.length = d.length + 3 from by
        simp only [List.length_cons, List.length_nil]; omega, digitAt_add3] at h2
      exact h2
  · rintro ⟨hne, hdig, hpre, haft⟩
    refine ⟨hne, hdig, Or.inr (Or.inr (Or.inr ⟨?_, ?_⟩))⟩
    · simp only [List.drop_zero, List.isPrefixOf_iff_prefix, List.cons_append,
        List.nil_append, List.cons_prefix_cons, true_and]
      rwa [List.isPrefixOf_iff_prefix] at hpre
    · rw [show 0 + (['M', 'x', '_'] : Str).length + d.length = d.length + 3 from by
        simp only [List.length_cons, List.length_nil]; omega, digitAt_add3]
      exact haft

theorem markerB_iff (r d : Str) (hr : ∀ r', r ≠ '_' :: r') :
    MoldMarker ('M' :: 'x' :: r) 0 d
      ↔ (d ≠ [] ∧ (∀ c ∈ d, c.isDigit = true) ∧ d.isPrefixOf r = true
          ∧ digitAt r d.length = false) := by
  unfold MoldMarker variantAt occAt
  constructor
  · rintro ⟨hne, hdig, hv⟩
    refine ⟨hne, hdig, ?_⟩
    rcases hv with ⟨h1, h2⟩ | ⟨h1, h2⟩ | ⟨h1, h2⟩ | ⟨h1, h2⟩
    · exfalso
      rcases d with _ | ⟨e, d'⟩
      · exact hne rfl
      simp only [List.drop_zero, List.isPrefixOf_iff_prefix, List.cons_append,
        List.nil_append, List.cons_prefix_cons] at h1
      obtain ⟨-, he, -⟩ := h1
      have := hdig e (by simp)
      rw [he] at this
      exact absurd this (by decide)
    · simp only [List.drop_zero, List.isPrefixOf_iff_prefix, List.cons_append,
        List.nil_append, List.cons_prefix_cons, true_and] at h1
      rw [← List.isPrefixOf_iff_prefix] at h1
      refine ⟨h1, ?_⟩
      rw [show 0 + (['M', 'x'] : Str).length + d.length = d.length + 2 from by
        simp only [List.length_cons, List.length_nil]; omega, digitAt_add2] at h2
      exact h2
    · exfalso
      simp only [List.drop_zero, List.isPrefixOf_iff_prefix, List.cons_append,
        List.nil_append, List.cons_prefix_cons] at h1
      obtain ⟨-, he, -⟩ := h1
      exact absurd he (by decide)
    · exfalso
      rcases r with _ | ⟨f, r'⟩
      · simp [List.drop_zero, List.isPrefixOf_iff_prefix, List.cons_prefix_cons,
          List.prefix_nil] at h1
      · simp only [List.drop_zero, List.isPrefixOf_iff_prefix, List.cons_append,
          List.nil_append, List.cons_prefix_cons] at h1
        obtain ⟨-, -, hf, -⟩ := h1
        exact hr r' (by rw [hf])
  · rintro ⟨hne, hdig, hpre, haft⟩
    refine ⟨hne, hdig, Or.inr (Or.inl ⟨?_, ?_⟩)⟩
    · simp only [List.drop_zero, List.isPrefixOf_iff_prefix, List.cons_append,
        List.nil_append, List.cons_prefix_cons, true_and]
      rwa [List.isPrefixOf_iff_prefix] at hpre
    · rw [show 0 + (['M', 'x'] : Str).length + d.length = d.length + 2 from by
        simp only [List.length_cons, List.length_nil]; omega, digitAt_add2]
      exact haft

theorem markerC_iff (r d : Str) :
    MoldMarker ('M' :: '_' :: r) 0 d
      ↔ (d ≠ [] ∧ (∀ c ∈ d, c.isDigit = true) ∧ d.isPrefixOf r = true
          ∧ digitAt r d.length = false) := by
  unfold MoldMarker variantAt occAt
  constructor
  · rintro ⟨hne, hdig, hv⟩
    refine ⟨hne, hdig, ?_⟩
    rcases hv with ⟨h1, h2⟩ | ⟨h1, h2⟩ | ⟨h1, h2⟩ | ⟨h1, h2⟩
    · exfalso
      rcases d with _ | ⟨e, d'⟩
      · exact hne rfl
      simp only [List.drop_zero, List.isPrefixOf_iff_prefix, List.cons_append,
        List.nil_append, List.cons_prefix_cons] at h1
      obtain ⟨-, he, -⟩ := h1
      have := hdig e (by simp)
      rw [he] at this
      exact absurd this (by decide)
    · exfalso
      simp only [List.drop_zero, List.isPrefixOf_iff_prefix, List.cons_append,
        List.nil_append, List.cons_prefix_cons] at h1
      obtain ⟨-, he, -⟩ := h1
      exact absurd he (by decide)
    · simp only [List.drop_zero, List.isPrefixOf_iff_prefix, List.cons_append,
        List.nil_append, List.cons_prefix_cons, true_and] at h1
      rw [← List.isPrefixOf_iff_prefix] at h1
      refine ⟨h1, ?_⟩
      rw [show 0 + (['M', '_'] : Str).length + d.length = d.length + 2 from by
        simp only [List.length_cons, List.length_nil]; omega, digitAt_add2] at h2
      exact h2
    · exfalso
      simp only [List.drop_zero, List.isPrefixOf_iff_prefix, List.cons_append,
        List.nil_append, List.cons_prefix_cons] at h1
      obtain ⟨-, he, -⟩ := h1
      exact absurd he (by decide)
  · rintro ⟨hne, hdig, hpre, haft⟩
    refine ⟨hne, hdig, Or.inr (Or.inr (Or.inl ⟨?_, ?_⟩))⟩
    · simp only [List.drop_zero, List.isPrefixOf_iff_prefix, List.cons_append,
        List.nil_append, List.cons_prefix_cons, true_and]
      rwa [List.isPrefixOf_iff_prefix] at hpre
    · rw [show 0 + (['M', '_'] : Str).length + d.length = d.length + 2 from by
        simp only [List.length_cons, List.length_nil]; omega, digitAt_add2]
      exact haft

theorem markerD_iff (t d : Str) (hx : ∀ r', t ≠ 'x' :: r') (hu : ∀ r', t ≠ '_' :: r') :
    MoldMarker ('M' :: t) 0 d
      ↔ (d ≠ [] ∧ (∀ c ∈ d, c.isDigit = true) ∧ d.isPrefixOf t = true
          ∧ digitAt t d.length = false) := by
  unfold MoldMarker variantAt occAt
  constructor
  · rintro ⟨hne, hdig, hv⟩
    refine ⟨hne, hdig, ?_⟩
    rcases hv with ⟨h1, h2⟩ | ⟨h1, h2⟩ | ⟨h1, h2⟩ | ⟨h1, h2⟩
    · simp only [List.drop_zero, List.isPrefixOf_iff_prefix, List.cons_append,
        List.nil_append, List.cons_prefix_cons, true_and] at h1
      rw [← List.isPrefixOf_iff_prefix] at h1
      refine ⟨h1, ?_⟩
      rw [show 0 + (['M'] : Str).length + d.length = d.length + 1 from by
        simp only [List.length_cons, List.length_nil]; omega, digitAt_add1] at h2
      exact h2
    · exfalso
      rcases t with _ | ⟨f, t'⟩
      · simp [List.drop_zero, List.isPrefixOf_iff_prefix, List.cons_prefix_cons,
          List.prefix_nil] at h1
      · simp only [List.drop_zero, List.isPrefixOf_iff_prefix, List.cons_append,
          List.nil_append, List.cons_prefix_cons] at h1
        obtain ⟨-, hf, -⟩ := h1
        exact hx t' (by rw [hf])
    · exfalso
      rcases t with _ | ⟨f, t'⟩
      · simp [List.drop_zero, List.isPrefixOf_iff_prefix, List.cons_prefix_cons,
          List.prefix_nil] at h1
      · simp only [List.drop_zero, List.isPrefixOf_iff_prefix, List.cons_append,
          List.nil_append, List.cons_prefix_cons] at h1
        obtain ⟨-, hf, -⟩ := h1
        exact hu t' (by rw [hf])
    · exfalso
      rcases t with _ | ⟨f, t'⟩
      · simp [List.drop_zero, List.isPrefixOf_iff_prefix, List.cons_prefix_cons,
          List.prefix_nil] at h1
      · simp only [List.drop_zero, List.isPrefixOf_iff_prefix, List.cons_append,
          List.nil_append, List.cons_prefix_cons] at h1
        obtain ⟨-, hf, -⟩ := h1
        exact hx t' (by rw [hf])
  · rintro ⟨hne, hdig, hpre, haft⟩
    refine ⟨hne, hdig, Or.inl ⟨?_, ?_⟩⟩
    · simp only [List.drop_zero, List.isPrefixOf_iff_prefix, List.cons_append,
        List.nil_append, List.cons_prefix_cons, true_and]
      rwa [List.isPrefixOf_iff_prefix] at hpre
    · rw [show 0 + (['M'] : Str).length + d.length = d.length + 1 from by
        simp only [List.length_cons, List.length_nil]; omega, digitAt_add1]
      exact haft

theorem headDigit_underscore (r : Str) : headDigit ('_' :: r) = false := by
  show ('_' : Char).isDigit = false
  decide

theorem headDigit_x (r : Str) : headDigit ('x' :: r) = false := by
  show ('x' : Char).isDigit = false
  decide

theorem matchUD_underscore (r : Str) :
    matchUD ('_' :: r) = if headDigit r = true then some (digitRun r) else none := by
  show (if headDigit r = true then some (digitRun r)
    else if headDigit ('_' :: r) = true then some (digitRun ('_' :: r)) else none) = _
  rw [headDigit_underscore]
  by_cases h : headDigit r = true <;> simp [h]

theorem matchUD_not_underscore (s : Str) (hu : ∀ r', s ≠ '_' :: r') :
    matchUD s = if headDigit s = true then some (digitRun s) else none := by
  unfold matchUD
  split
  · rename_i r
    exact absurd rfl (hu r)
  · rfl

theorem matchAfterM_x (r : Str) :
    matchAfterM ('x' :: r)
      = match matchUD r with
        | some d => some d
        | none => matchUD ('x' :: r) := rfl

theorem matchAfterM_not_x (s : Str) (hx : ∀ r', s ≠ 'x' :: r') :
    matchAfterM s = matchUD s := by
  unfold matchAfterM
  split
  · rename_i r
    exact absurd rfl (hx r)
  · rfl

theorem matchUD_x (r : Str) : matchUD ('x' :: r) = none := by
  rw [matchUD_not_underscore ('x' :: r) (by intro r' h; cases h), headDigit_x]
  simp

theorem matchAfterM_xCase (r : Str) :
    matchAfterM ('x' :: r) = matchUD r := by
  rw [matchAfterM_x]
  rcases h : matchUD r with _ | d
  · rw [matchUD_x]
  · rfl

theorem ifRun_eq_some_iff (r d : Str) :
    ((if headDigit r = true then some (digitRun r) else none) = some d)
      ↔ (headDigit r = true ∧ d = digitRun r) := by
  by_cases h : headDigit r = true
  · simp [h, eq_comm]
  · simp [h]

/-- The head-position characterization of the scanner step: there is a marker
with digit run `d` at position 0 of `'M' :: t` exactly when the backtracking
matcher after `M` returns `d`. -/
theorem headMarker_iff (t d : Str) :
    MoldMarker ('M' :: t) 0 d ↔ matchAfterM t = some d := by
  rcases t with _ | ⟨c, t'⟩
  · rw [markerD_iff [] d (by intro r h; cases h) (by intro r h; cases h),
      marker_core_iff, matchAfterM_not_x [] (by intro r h; cases h),
      matchUD_not_underscore [] (by intro r h; cases h), ifRun_eq_some_iff]
  · by_cases hcx : c = 'x'
    · subst hcx
      rcases t' with _ | ⟨c2, t''⟩
      · rw [markerB_iff [] d (by intro r h; cases h), marker_core_iff,
          matchAfterM_xCase, matchUD_not_underscore [] (by intro r h; cases h),
          ifRun_eq_some_iff]
      · by_cases hc2 : c2 = '_'
        · subst hc2
          rw [markerA_iff t'' d, marker_core_iff, matchAfterM_xCase,
            matchUD_underscore, ifRun_eq_some_iff]
        · rw [markerB_iff (c2 :: t'') d
              (by intro r' h; rw [List.cons.injEq] at h; exact hc2 h.1),
            marker_core_iff, matchAfterM_xCase,
            matchUD_not_underscore (c2 :: t'')
              (by intro r' h; rw [List.cons.injEq] at h; exact hc2 h.1),
            ifRun_eq_some_iff]
    · by_cases hcu : c = '_'
      · subst hcu
        rw [markerC_iff t' d, marker_core_iff,
          matchAfterM_not_x ('_' :: t') (by intro r' h; rw [List.cons.injEq] at h; cases h.1),
          matchUD_underscore, ifRun_eq_some_iff]
      · rw [markerD_iff (c :: t') d
            (by intro r' h; rw [List.cons.injEq] at h; exact hcx h.1)
            (by intro r' h; rw [List.cons.injEq] at h; exact hcu h.1),
          marker_core_iff,
          matchAfterM_not_x (c :: t') (by intro r' h; rw [List.cons.injEq] at h; exact hcx h.1),
          matchUD_not_underscore (c :: t') (by intro r' h; rw [List.cons.injEq] at h; exact hcu h.1),
          ifRun_eq_some_iff]

/-- The scan returns the digit run of the first marker position, and the empty
string when no marker exists. -/
theorem extractScan_spec (s : Str) :
    ((∀ i d, ¬ MoldMarker s i d) → extractScanMold s = [])
    ∧ (∀ i d, MoldMarker s i d → (∀ j, j < i → ∀ d', ¬ MoldMarker s j d') →
        extractScanMold s = d) := by
  induction s with
  | nil =>
    refine ⟨fun _ => rfl, ?_⟩
    intro i d hm _
    exact absurd (moldMarker_mem_M [] d i hm) (by simp)
  | cons c t ih =>
    constructor
    · intro h
      unfold extractScanMold
      by_cases hc : c = 'M'
      · subst hc
        rw [if_pos rfl]
        rcases hm : matchAfterM t with _ | d
        · exact ih.1 (fun i d hmk => h (i + 1) d ((moldMarker_cons 'M' t d i).mpr hmk))
        · exact absurd ((headMarker_iff t d).mpr hm) (h 0 d)
      · rw [if_neg hc]
        exact ih.1 (fun i d hmk => h (i + 1) d ((moldMarker_cons c t d i).mpr hmk))
    · intro i d hm hmin
      unfold extractScanMold
      by_cases hc : c = 'M'
      · subst hc
        rw [if_pos rfl]
        rcases i with _ | j
        · rw [(headMarker_iff t d).mp hm]
        · have h0 : matchAfterM t = none := by
            rcases hmt : matchAfterM t with _ | d'
            · rfl
            · exact absurd ((headMarker_iff t d').mpr hmt) (hmin 0 (Nat.succ_pos j) d')
          rw [h0]
          exact ih.2 j d ((moldMarker_cons 'M' t d j).mp hm)
            (fun j' hj' d' hmk =>
              hmin (j' + 1) (by omega) d' ((moldMarker_cons 'M' t d' j').mpr hmk))
      · rw [if_neg hc]
        rcases i with _ | j
        · exact absurd (moldMarker_head c t d hm) hc
        · exact ih.2 j d ((moldMarker_cons c t d j).mp hm)
            (fun j' hj' d' hmk =>
              hmin (j' + 1) (by omega) d' ((moldMarker_cons c t d' j').mpr hmk))

/-- C5 (amended).  The extractor returns exactly the digit run of the first
occurrence of `M`, optionally followed by `x`, optionally followed by an
underscore (the only separator the pattern admits), followed by digits; for
inputs with no such marker — including the empty string and the coerced
`None` — it returns the empty string. -/
theorem C5_extractor (s : Str) :
    ((∀ i d, ¬ MoldMarker s i d) → extract_moldenhauer_number s = [])
    ∧ (∀ i d, MoldMarker s i d → (∀ j, j < i → ∀ d', ¬ MoldMarker s j d') →
        extract_moldenhauer_number s = d)
    ∧ extract_moldenhauer_number "None".data = []
    ∧ extract_moldenhauer_number [] = [] :=
  ⟨(extractScan_spec s).1, (extractScan_spec s).2, by decide, rfl⟩

/-- C5, counterexample to the claim as stated: `M-143` has the shape
`M<sep><digits>` with the non-digit separator `-`, so the claim demands the
result `143`, but the extractor accepts only an underscore separator and
returns the empty string. -/
theorem C5_extractor_counterexample :
    ("M-143".data = 'M' :: '-' :: "143".data)
    ∧ ('-' : Char).isDigit = false
    ∧ ("143".data ≠ [] ∧ ∀ c ∈ "143".data, c.isDigit = true)
    ∧ extract_moldenhauer_number "M-143".data = []
    ∧ extract_moldenhauer_number "M-143".data ≠ "143".data := by
  refine ⟨rfl, by decide, ⟨by decide, by decide⟩, by decide, by decide⟩

/-- C5, witness: `M_143_TF5` carries a marker at position 0 with digit run
`143` and the extractor returns it; `abc` carries no marker and the extractor
returns the empty string. -/
theorem C5_extractor_witness :
    MoldMarker "M_143_TF5".data 0 "143".data
    ∧ extract_moldenhauer_number "M_143_TF5".data = "143".data
    ∧ extract_moldenhauer_number "abc".data = [] := by
  refine ⟨by decide, ?_, ?_⟩
  · exact (C5_extractor "M_143_TF5".data).2.1 0 "143".data (by decide)
      (fun j hj d' => absurd hj (Nat.not_lt_zero j))
  · exact (C5_extractor "abc".data).1 (no_marker_of_no_M "abc".data (by decide))

/-! ### C2 and C7: the relevance filter -/

theorem containsSub_substring_iff (pat : Str) : ∀ (s : Str),
    containsSub s pat = true ↔ pat <:+: s := by
  intro s
  induction s with
  | nil =>
    show pat.isPrefixOf [] = true ↔ _
    rw [List.isPrefixOf_iff_prefix]
    constructor
    · intro h; exact h.isInfix
    · intro h; rw [List.infix_nil.mp h]
  | cons c t ih =>
    show (pat.isPrefixOf (c :: t) || containsSub t pat) = true ↔ _
    rw [Bool.or_eq_true, List.isPrefixOf_iff_prefix, ih]
    exact (List.infix_cons_iff).symm

/-- Generic suffix scan: does `q` hold of some suffix? -/
def suffixAny (q : Str → Bool) : Str → Bool
  | [] => q []
  | c :: t => q (c :: t) || suffixAny q t

theorem suffixAny_iff (q : Str → Bool) : ∀ (f : Str),
    suffixAny q f = true ↔ ∃ p, q (f.drop p) = true := by
  intro f
  induction f with
  | nil =>
    show q [] = true ↔ _
    constructor
    · intro h; exact ⟨0, h⟩
    · rintro ⟨p, hp⟩; simpa using hp
  | cons c t ih =>
    show (q (c :: t) || suffixAny q t) = true ↔ _
    rw [Bool.or_eq_true, ih]
    constructor
    · rintro (h | ⟨p, hp⟩)
      · exact ⟨0, h⟩
      · exact ⟨p + 1, hp⟩
    · rintro ⟨p, hp⟩
      rcases p with _ | p
      · exact Or.inl hp
      · exact Or.inr ⟨p, hp⟩

theorem skFileSearch_eq_suffixAny (tok : Str) : ∀ (f : Str),
    skFileSearch tok f
      = suffixAny (fun u => tok.isPrefixOf u && notUnderscoreAfter u tok.length) f := by
  intro f
  induction f with
  | nil => rfl
  | cons c t ih =>
    show ((tok.isPrefixOf (c :: t) && notUnderscoreAfter (c :: t) tok.length)
        || skFileSearch tok t) = _
    rw [ih]
    rfl

theorem notUnderscoreAfter_drop (f : Str) (p n : Nat) :
    notUnderscoreAfter (f.drop p) n = notUnderscoreAfter f (p + n) := by
  unfold notUnderscoreAfter
  rw [List.drop_drop]

/-- The `(?!_)` search succeeds exactly when some occurrence of the token is
not immediately followed by an underscore. -/
theorem skFileSearch_iff (tok f : Str) :
    skFileSearch tok f = true
      ↔ ∃ p, occAt f tok p ∧ notUnderscoreAfter f (p + tok.length) = true := by
  rw [skFileSearch_eq_suffixAny, suffixAny_iff]
  constructor
  · rintro ⟨p, hp⟩
    rw [Bool.and_eq_true] at hp
    exact ⟨p, hp.1, by rw [← notUnderscoreAfter_drop]; exact hp.2⟩
  · rintro ⟨p, h1, h2⟩
    refine ⟨p, ?_⟩
    rw [Bool.and_eq_true]
    exact ⟨h1, by rw [notUnderscoreAfter_drop]; exact h2⟩

/-- C2 (amended).  For an entry identifier carrying a `TF<digits>` marker (and
no `SkRT`), the relevance filter returns exactly the same-catalog-number,
non-Reihentabelle filenames that contain `Textfassung<digits>` as a plain
substring — no exact-digit boundary is enforced, so for `TF1` a filename
containing `Textfassung10` is also returned. -/
theorem C2_relevance_tf (new_id : Str) (files : List Str) (num tfn : Str)
    (hskrt : containsSub new_id "SkRT".data = false)
    (htf : tfScan new_id = some tfn) :
    ∀ f, f ∈ get_relevant_svgs new_id files num
      ↔ (f ∈ files ∧ extract_moldenhauer_number f = num
          ∧ ¬ ("Reihentabelle".data <:+: f) ∧ ("Textfassung".data ++ tfn) <:+: f) := by
  intro f
  unfold get_relevant_svgs
  rw [if_neg (by rw [hskrt]; exact Bool.false_ne_true), htf]
  simp only [List.mem_filter, Bool.and_eq_true, beq_iff_eq, Bool.not_eq_eq_eq_not,
    Bool.not_true, containsSub_substring_iff]
  constructor
  · rintro ⟨⟨hmem, hnum, hrt⟩, htxt⟩
    refine ⟨hmem, hnum, ?_, htxt⟩
    intro hinf
    rw [(containsSub_substring_iff _ f).mpr hinf] at hrt
    exact Bool.noConfusion hrt
  · rintro ⟨hmem, hnum, hrt, htxt⟩
    refine ⟨⟨hmem, hnum, ?_⟩, htxt⟩
    rcases h : containsSub f "Reihentabelle".data with _ | _
    · rfl
    · exact absurd ((containsSub_substring_iff _ f).mp h) hrt

/-- C2, counterexample to the claim as stated: for the identifier
`M_143_TF1` the filename `M143_Textfassung10-final.svg` is returned although
it contains no `Textfassung1` token followed by a non-digit (its only match is
`Textfassung10`), which the claim excludes. -/
theorem C2_relevance_tf_counterexample :
    get_relevant_svgs "M_143_TF1".data ["M143_Textfassung10-final.svg".data] "143".data
      = ["M143_Textfassung10-final.svg".data]
    ∧ tfScan "M_143_TF1".data = some "1".data
    ∧ ¬ (∃ p, occAt "M143_Textfassung10-final.svg".data ("Textfassung".data ++ "1".data) p
        ∧ digitAt "M143_Textfassung10-final.svg".data
            (p + ("Textfassung".data ++ "1".data).length) = false) := by
  refine ⟨by decide, by decide, ?_⟩
  rintro ⟨p, h1, h2⟩
  have hb : suffixAny (fun u => ("Textfassung".data ++ "1".data).isPrefixOf u
      && !(digitAt u ("Textfassung".data ++ "1".data).length))
      "M143_Textfassung10-final.svg".data = true := by
    rw [suffixAny_iff]
    refine ⟨p, ?_⟩
    rw [Bool.and_eq_true]
    refine ⟨h1, ?_⟩
    have : digitAt ("M143_Textfassung10-final.svg".data.drop p)
        ("Textfassung".data ++ "1".data).length
        = digitAt "M143_Textfassung10-final.svg".data
            (p + ("Textfassung".data ++ "1".data).length) := by
      unfold digitAt
      rw [List.drop_drop]
    rw [this, h2]
    rfl
  exact absurd hb (by decide)

/-- C2, witness: for identifier `M_143_TF1` over the thirteen-file test corpus
shape, the filter keeps exactly the same-number non-Reihentabelle files
containing `Textfassung1` (which here includes both `Textfassung1` files). -/
theorem C2_relevance_tf_witness :
    "M143_Textfassung1-1von2-final.svg".data
        ∈ get_relevant_svgs "M_143_TF1".data
          ["M143_Textfassung1-1von2-final.svg".data,
           "M143_Textfassung2-1von1-final.svg".data,
           "op25_C_Reihentabelle-1von1-final.svg".data] "143".data
    ∧ ¬ ("M143_Textfassung2-1von1-final.svg".data
        ∈ get_relevant_svgs "M_143_TF1".data
          ["M143_Textfassung1-1von2-final.svg".data,
           "M143_Textfassung2-1von1-final.svg".data,
           "op25_C_Reihentabelle-1von1-final.svg".data] "143".data) := by
  constructor
  · exact (C2_relevance_tf "M_143_TF1".data
      ["M143_Textfassung1-1von2-final.svg".data, "M143_Textfassung2-1von1-final.svg".data,
       "op25_C_Reihentabelle-1von1-final.svg".data] "143".data "1".data
      (by decide) (by decide) "M143_Textfassung1-1von2-final.svg".data).mpr
      ⟨by decide, by decide, by decide, by decide⟩
  · intro hmem
    have := (C2_relevance_tf "M_143_TF1".data
      ["M143_Textfassung1-1von2-final.svg".data, "M143_Textfassung2-1von1-final.svg".data,
       "op25_C_Reihentabelle-1von1-final.svg".data] "143".data "1".data
      (by decide) (by decide) "M143_Textfassung2-1von1-final.svg".data).mp hmem
    exact absurd this.2.2.2 (by decide)

/-- Claim-side reading of C7's boundary: is the token at offset `n` followed
by an underscore-plus-digit segment? -/
def underscoreDigitAfter (f : Str) (n : Nat) : Bool :=
  match f.drop n with
  | '_' :: d :: _ => d.isDigit
  | _ => false

/-- C7 (amended).  For an entry identifier carrying a sketch marker (and no
`SkRT`, no `TF<digits>`), the relevance filter returns exactly the
same-catalog-number, non-Reihentabelle filenames containing the sketch token
at some position not immediately followed by an underscore — any underscore
disqualifies the occurrence, not only an underscore-plus-digit segment. -/
theorem C7_relevance_sk (new_id : Str) (files : List Str) (num tok : Str)
    (hskrt : containsSub new_id "SkRT".data = false)
    (htf : tfScan new_id = none)
    (hsk : skScan new_id = some tok) :
    ∀ f, f ∈ get_relevant_svgs new_id files num
      ↔ (f ∈ files ∧ extract_moldenhauer_number f = num
          ∧ ¬ ("Reihentabelle".data <:+: f)
          ∧ ∃ p, occAt f tok p ∧ notUnderscoreAfter f (p + tok.length) = true) := by
  intro f
  unfold get_relevant_svgs
  rw [if_neg (by rw [hskrt]; exact Bool.false_ne_true), htf, hsk]
  simp only [List.mem_filter, Bool.and_eq_true, beq_iff_eq]
  constructor
  · rintro ⟨⟨hmem, hnum, hrt⟩, hskf⟩
    refine ⟨hmem, hnum, ?_, (skFileSearch_iff tok f).mp hskf⟩
    intro hinf
    rw [(containsSub_substring_iff _ f).mpr hinf] at hrt
    exact Bool.noConfusion hrt
  · rintro ⟨hmem, hnum, hrt, hex⟩
    refine ⟨⟨hmem, hnum, ?_⟩, (skFileSearch_iff tok f).mpr hex⟩
    rcases h : containsSub f "Reihentabelle".data with _ | _
    · rfl
    · exact absurd ((containsSub_substring_iff _ f).mp h) hrt

/-- C7, counterexample to the claim as stated: for the identifier `M_5_Sk2`
and the filename `M5_Sk2_x.svg`, the token `Sk2` occurs followed by `_x` —
not an `_<digit>` segment, so the claim includes the file — but the code's
`(?!_)` lookahead rejects any underscore and returns the empty list. -/
theorem C7_relevance_sk_counterexample :
    get_relevant_svgs "M_5_Sk2".data ["M5_Sk2_x.svg".data] "5".data = []
    ∧ skScan "M_5_Sk2".data = some "Sk2".data
    ∧ extract_moldenhauer_number "M5_Sk2_x.svg".data = "5".data
    ∧ ¬ ("Reihentabelle".data <:+: "M5_Sk2_x.svg".data)
    ∧ (∃ p, occAt "M5_Sk2_x.svg".data "Sk2".data p
        ∧ underscoreDigitAfter "M5_Sk2_x.svg".data (p + "Sk2".data.length) = false) := by
  refine ⟨by decide, by decide, by decide, ?_, ⟨3, by decide, by decide⟩⟩
  intro h
  have := (containsSub_substring_iff "Reihentabelle".data "M5_Sk2_x.svg".data).mpr h
  exact absurd this (by decide)

/-- C7, witness: for identifier `M_143_Sk2`, the file `M143_Sk2-1von3-final.svg`
is kept (its token `Sk2` is followed by `-`) and `M143_Sk2_1-1von1-final.svg`
is excluded (every occurrence of `Sk2` is followed by an underscore). -/
theorem C7_relevance_sk_witness :
    "M143_Sk2-1von3-final.svg".data
        ∈ get_relevant_svgs "M_143_Sk2".data
          ["M143_Sk2_1-1von1-final.svg".data, "M143_Sk2-1von3-final.svg".data] "143".data
    ∧ ¬ ("M143_Sk2_1-1von1-final.svg".data
        ∈ get_relevant_svgs "M_143_Sk2".data
          ["M143_Sk2_1-1von1-final.svg".data, "M143_Sk2-1von3-final.svg".data] "143".data) := by
  constructor
  · exact (C7_relevance_sk "M_143_Sk2".data
      ["M143_Sk2_1-1von1-final.svg".data, "M143_Sk2-1von3-final.svg".data] "143".data
      "Sk2".data (by decide) (by decide) (by decide)
      "M143_Sk2-1von3-final.svg".data).mpr
      ⟨by decide, by decide,
       fun h => absurd ((containsSub_substring_iff _ _).mpr h) (by decide),
       ⟨5, by decide, by decide⟩⟩
  · intro hmem
    have := (C7_relevance_sk "M_143_Sk2".data
      ["M143_Sk2_1-1von1-final.svg".data, "M143_Sk2-1von3-final.svg".data] "143".data
      "Sk2".data (by decide) (by decide) (by decide)
      "M143_Sk2_1-1von1-final.svg".data).mp hmem
    have hb := (skFileSearch_iff "Sk2".data "M143_Sk2_1-1von1-final.svg".data).mpr this.2.2.2
    exact absurd hb (by decide)

/-! ### C4: idempotence of the full unification

Failing input: one entry `M_1` with blocks `x`, `y`, and one file `M1_a.svg`
whose text carries three `tkk` elements with ids `x`, `g-tkk-1` and `y` (the
middle one already prefixed in the input).  The first run reconciles every
block (`x ↦ g-tkk-1`, `y ↦ g-tkk-2`) and reports zero issues, but it has made
the file carry two `g-tkk-1` elements; in the second run the first block is
skipped as ambiguous, so the sequence restarts and the second block is renamed
again (`g-tkk-2 ↦ g-tkk-1`) — the second run is not a no-op. -/

def c4content : Str :=
  "<a class=\"tkk\" id=\"x\"/><b class=\"tkk\" id=\"g-tkk-1\"/><c class=\"tkk\" id=\"y\"/>".data

def c4fs : FileSystem :=
  ⟨true, true, true, [⟨"M_1".data, [[⟨some "x".data⟩, ⟨some "y".data⟩]]⟩],
   ["M1_a.svg".data], [("M1_a.svg".data, c4content)]⟩

def c4content1 : Str :=
  "<a class=\"tkk\" id=\"g-tkk-1\"/><b class=\"tkk\" id=\"g-tkk-1\"/><c class=\"tkk\" id=\"y\"/>".data

def c4content2 : Str :=
  "<a class=\"tkk\" id=\"g-tkk-1\"/><b class=\"tkk\" id=\"g-tkk-1\"/><c class=\"tkk\" id=\"g-tkk-2\"/>".data

def c4content3 : Str :=
  "<a class=\"tkk\" id=\"g-tkk-1\"/><b class=\"tkk\" id=\"g-tkk-1\"/><c class=\"tkk\" id=\"g-tkk-1\"/>".data

def c4data1 : List Entry :=
  [⟨"M_1".data, [[⟨some "g-tkk-1".data⟩, ⟨some "g-tkk-2".data⟩]]⟩]

def c4data2 : List Entry :=
  [⟨"M_1".data, [[⟨some "g-tkk-1".data⟩, ⟨some "g-tkk-1".data⟩]]⟩]

def c4st1 : ProcState := ⟨[("M1_a.svg".data, c4content2)], ["M1_a.svg".data]⟩

def c4st2 : ProcState := ⟨[("M1_a.svg".data, c4content3)], ["M1_a.svg".data]⟩

def c4fsAfter : FileSystem :=
  ⟨true, true, true, c4data1, ["M1_a.svg".data], [("M1_a.svg".data, c4content2)]⟩

/-- C4 (code bug).  On the failing input above, the first run succeeds with
both block steps reporting success and a zero-issue validation report, yet
running the unification again over the first run's output renames the second
block's reference from `g-tkk-2` to `g-tkk-1` and rewrites the file — the
second run performs a rename instead of none, contradicting the idempotence
property. -/
theorem C4_idempotence_failure :
    process_tkk_ids c4fs "j".data "d".data "g-tkk-".data = .ok (c4data1, c4st1, true)
    ∧ (process_block_comment ⟨some "x".data⟩ ["M1_a.svg".data]
        ⟨[("M1_a.svg".data, c4content)], []⟩ [] "g-tkk-".data).2.2.2 = true
    ∧ (process_block_comment ⟨some "y".data⟩ ["M1_a.svg".data]
        ⟨[("M1_a.svg".data, c4content1)], ["M1_a.svg".data]⟩
        [("x".data, "g-tkk-1".data)] "g-tkk-".data).2.2.2 = true
    ∧ issueCount c4data1 "g-tkk-".data c4st1.loaded c4st1.files = 0
    ∧ process_tkk_ids c4fsAfter "j".data "d".data "g-tkk-".data = .ok (c4data2, c4st2, true)
    ∧ c4data2 ≠ c4data1
    ∧ issueCount c4data2 "g-tkk-".data c4st2.loaded c4st2.files = 0 := by
  refine ⟨by decide, by decide, by decide, by decide, by decide, by decide, by decide⟩

/-! ### Declarative semantics of the regex engine

`SegOk item seg` says the segment `seg` is one admissible piece for the item;
`MatchSeg pat m` says `m` splits into admissible pieces for the items of
`pat` in order.  The operational matcher is sound and complete for it. -/

def SegOk : RItem → Str → Prop
  | .lit l, s => s = l
  | .star, s => ∀ c ∈ s, c ≠ '>'
  | .plus, s => s ≠ [] ∧ ∀ c ∈ s, c ≠ '>'
  | .quote, s => ∃ c, s = [c] ∧ (c = dqc ∨ c = sqc)

def MatchSeg (pat : List RItem) (m : Str) : Prop :=
  ∃ segs : List Str, List.Forall₂ SegOk pat segs ∧ m = segs.flatten

/-- Taking past a left factor of an append. -/
theorem take_len_add (X : Str) : ∀ (t : Str) (m : Nat),
    (X ++ t).take (X.length + m) = X ++ t.take m := by
  induction X with
  | nil => intro t m; simp
  | cons a X ih =>
    intro t m
    have : (a :: X).length + m = (X.length + m) + 1 := by
      simp only [List.length_cons]; omega
    rw [this]
    simp only [List.cons_append, List.take_succ_cons, ih]

/-- Dropping past a left factor of an append. -/
theorem drop_len_add (X : Str) : ∀ (t : Str) (m : Nat),
    (X ++ t).drop (X.length + m) = t.drop m := by
  induction X with
  | nil => intro t m; simp
  | cons a X ih =>
    intro t m
    have : (a :: X).length + m = (X.length + m) + 1 := by
      simp only [List.length_cons]; omega
    rw [this]
    simp only [List.cons_append, List.drop_succ_cons, ih]

/-- Taking a prefix shorter than the left factor of an append. -/
theorem take_append_le (X : Str) : ∀ (Z : Str) (n : Nat), n ≤ X.length →
    (X ++ Z).take n = X.take n := by
  induction X with
  | nil => intro Z n h; simp at h; simp [h]
  | cons a X ih =>
    intro Z n h
    cases n with
    | zero => simp
    | succ n =>
      simp only [List.cons_append, List.take_succ_cons]
      rw [ih Z n (by simp at h; omega)]

/-- Dropping less than the left factor of an append. -/
theorem drop_append_le (X : Str) : ∀ (Z : Str) (n : Nat), n ≤ X.length →
    (X ++ Z).drop n = X.drop n ++ Z := by
  induction X with
  | nil => intro Z n h; simp at h; simp [h]
  | cons a X ih =>
    intro Z n h
    cases n with
    | zero => simp
    | succ n =>
      simp only [List.cons_append, List.drop_succ_cons]
      rw [ih Z n (by simp at h; omega)]

/-- Splitting a take at an intermediate point. -/
theorem take_add_split (a : Nat) : ∀ (s : Str) (b : Nat),
    s.take (a + b) = s.take a ++ (s.drop a).take b := by
  induction a with
  | zero => intro s b; simp
  | succ a ih =>
    intro s b
    cases s with
    | nil => simp
    | cons c t =>
      have : a + 1 + b = (a + b) + 1 := by omega
      rw [this]
      simp only [List.take_succ_cons, List.drop_succ_cons, List.cons_append]
      rw [ih t b]

/-- Taking exactly the left factor of an append. -/
theorem take_len (X Z : Str) : (X ++ Z).take X.length = X := by
  have := take_len_add X Z 0
  simpa using this

/-- Dropping exactly the left factor of an append. -/
theorem drop_len (X Z : Str) : (X ++ Z).drop X.length = Z := by
  have := drop_len_add X Z 0
  simpa using this

theorem lazyAux_sound (f : Str → Option Nat) : ∀ (s : Str) (n : Nat),
    lazyAux f s = some n →
    ∃ k, k ≤ n ∧ k ≤ s.length ∧ (∀ c ∈ s.take k, c ≠ '>')
      ∧ f (s.drop k) = some (n - k) := by
  intro s
  induction s with
  | nil =>
    intro n h
    exact ⟨0, Nat.zero_le n, Nat.zero_le 0, by simp, by simpa using h⟩
  | cons c t ih =>
    intro n h
    unfold lazyAux at h
    rcases hf : f (c :: t) with _ | m
    · rw [hf] at h
      by_cases hc : c = '>'
      · simp [hc] at h
      · simp only [hc, if_false] at h
        rcases hl : lazyAux f t with _ | m'
        · rw [hl] at h; simp at h
        · rw [hl] at h
          simp only [Option.map_some', Option.some.injEq] at h
          subst h
          obtain ⟨k, hk1, hk2, hk3, hk4⟩ := ih m' hl
          refine ⟨k + 1, ?_, ?_, ?_, ?_⟩
          · omega
          · simp only [List.length_cons]; omega
          · intro x hx
            simp only [List.take_succ_cons, List.mem_cons] at hx
            rcases hx with rfl | hx
            · exact hc
            · exact hk3 x hx
          · simp only [List.drop_succ_cons]
            rw [show m' + 1 - (k + 1) = m' - k from by omega]
            exact hk4
    · rw [hf] at h
      simp only [Option.some.injEq] at h
      subst h
      exact ⟨0, Nat.zero_le _, Nat.zero_le _, by simp, by simpa using hf⟩

theorem lazyAux_complete (f : Str → Option Nat) :
    ∀ (k : Nat) (s : Str), k ≤ s.length → (∀ c ∈ s.take k, c ≠ '>') →
    (f (s.drop k)).isSome → (lazyAux f s).isSome := by
  intro k
  induction k with
  | zero =>
    intro s _ _ hf
    cases s with
    | nil => simpa [lazyAux] using hf
    | cons c t =>
      rw [List.drop_zero] at hf
      unfold lazyAux
      rcases h : f (c :: t) with _ | m
      · rw [h] at hf; simp at hf
      · simp
  | succ k ih =>
    intro s hlen hchars hf
    cases s with
    | nil => simp at hlen
    | cons c t =>
      unfold lazyAux
      rcases h : f (c :: t) with _ | m
      · have hc : c ≠ '>' := hchars c (by simp [List.take_succ_cons])
        simp only [hc, if_false]
        have ht : (lazyAux f t).isSome := by
          apply ih t (by simp at hlen; omega)
          · intro x hx
            exact hchars x (by simp [List.take_succ_cons, hx])
          · simpa [List.drop_succ_cons] using hf
        rcases hl : lazyAux f t with _ | m'
        · rw [hl] at ht; simp at ht
        · simp
      · simp

theorem reMatch_sound : ∀ (pat : List RItem) (s : Str) (n : Nat),
    reMatch pat s = some n → n ≤ s.length ∧ MatchSeg pat (s.take n) := by
  intro pat
  induction pat with
  | nil =>
    intro s n h
    unfold reMatch at h
    simp only [Option.some.injEq] at h
    subst h
    exact ⟨Nat.zero_le _, ⟨[], List.Forall₂.nil, by simp⟩⟩
  | cons item r ih =>
    intro s n h
    cases item with
    | lit l =>
      unfold reMatch at h
      by_cases hp : l.isPrefixOf s
      · simp only [hp, if_true] at h
        rcases hm : reMatch r (s.drop l.length) with _ | n'
        · rw [hm] at h; simp at h
        · rw [hm] at h
          simp only [Option.map_some', Option.some.injEq] at h
          subst h
          obtain ⟨hle, segs', hall, hjoin⟩ := ih _ _ hm
          obtain ⟨t, ht⟩ := List.isPrefixOf_iff_prefix.mp hp
          subst ht
          rw [drop_len] at hjoin hle
          constructor
          · simp only [List.length_append]
            omega
          · refine ⟨l :: segs', List.Forall₂.cons rfl hall, ?_⟩
            rw [show n' + l.length = l.length + n' from by omega, take_len_add]
            rw [List.flatten_cons, ← hjoin]
      · simp [hp] at h
    | quote =>
      unfold reMatch at h
      cases s with
      | nil => simp at h
      | cons c t =>
        by_cases hcq : c = dqc ∨ c = sqc
        · simp only [hcq, if_true] at h
          rcases hm : reMatch r t with _ | n'
          · rw [hm] at h; simp at h
          · rw [hm] at h
            simp only [Option.map_some', Option.some.injEq] at h
            subst h
            obtain ⟨hle, segs', hall, hjoin⟩ := ih _ _ hm
            constructor
            · simp only [List.length_cons]; omega
            · refine ⟨[c] :: segs', List.Forall₂.cons ⟨c, rfl, hcq⟩ hall, ?_⟩
              simp only [List.take_succ_cons, List.flatten_cons, List.singleton_append]
              rw [← hjoin]
        · simp [hcq] at h
    | star =>
      unfold reMatch at h
      obtain ⟨k, hk1, hk2, hk3, hres⟩ := lazyAux_sound _ _ _ h
      obtain ⟨hle, segs', hall, hjoin⟩ := ih _ _ hres
      simp only [List.length_drop] at hle
      constructor
      · omega
      · refine ⟨s.take k :: segs', List.Forall₂.cons hk3 hall, ?_⟩
        simp only [List.flatten_cons]
        rw [← hjoin, show n = k + (n - k) from by omega, take_add_split,
          Nat.add_sub_cancel_left]
    | plus =>
      unfold reMatch at h
      cases s with
      | nil => simp at h
      | cons c t =>
        by_cases hc : c = '>'
        · simp [hc] at h
        · simp only [hc, if_false] at h
          rcases hl : lazyAux (reMatch r) t with _ | m
          · rw [hl] at h; simp at h
          · rw [hl] at h
            simp only [Option.map_some', Option.some.injEq] at h
            subst h
            obtain ⟨k, hk1, hk2, hk3, hres⟩ := lazyAux_sound _ _ _ hl
            obtain ⟨hle, segs', hall, hjoin⟩ := ih _ _ hres
            simp only [List.length_drop] at hle
            constructor
            · simp only [List.length_cons]; omega
            · refine ⟨(c :: t.take k) :: segs',
                List.Forall₂.cons ⟨by simp, ?_⟩ hall, ?_⟩
              · intro x hx
                simp only [List.mem_cons] at hx
                rcases hx with rfl | hx
                · exact hc
                · exact hk3 x hx
              · simp only [List.flatten_cons, List.cons_append, List.take_succ_cons]
                rw [← hjoin, show m = k + (m - k) from by omega, take_add_split,
                  Nat.add_sub_cancel_left]

theorem reMatch_complete : ∀ (pat : List RItem) (u s : Str),
    MatchSeg pat u → u <+: s → (reMatch pat s).isSome := by
  intro pat
  induction pat with
  | nil => intro u s _ _; simp [reMatch]
  | cons item r ih =>
    intro u s hm hp
    obtain ⟨segs, hall, hjoin⟩ := hm
    cases hall with
    | cons hseg htail =>
      rename_i b l₂
      obtain ⟨v, hv⟩ := hp
      subst hjoin
      cases item with
      | lit l =>
        rw [show SegOk (.lit l) b = (b = l) from rfl] at hseg
        subst hseg
        unfold reMatch
        rw [List.flatten_cons] at hv
        have hpre : b.isPrefixOf s = true := by
          rw [List.isPrefixOf_iff_prefix]
          exact ⟨l₂.flatten ++ v, by rw [← hv]; simp⟩
        rw [hpre, if_pos rfl]
        have hds : s.drop b.length = l₂.flatten ++ v := by
          rw [← hv, List.append_assoc, drop_len]
        rw [hds]
        have := ih l₂.flatten (l₂.flatten ++ v) ⟨l₂, htail, rfl⟩ ⟨v, rfl⟩
        rcases hr : reMatch r (l₂.flatten ++ v) with _ | m
        · rw [hr] at this; simp at this
        · simp
      | quote =>
        obtain ⟨c, rfl, hcq⟩ := hseg
        rw [List.flatten_cons, List.singleton_append, List.cons_append] at hv
        rw [← hv]
        simp only [reMatch]
        simp only [hcq, if_true]
        have := ih l₂.flatten (l₂.flatten ++ v) ⟨l₂, htail, rfl⟩ ⟨v, rfl⟩
        rcases hr : reMatch r (l₂.flatten ++ v) with _ | m
        · rw [hr] at this; simp at this
        · simp
      | star =>
        rw [show SegOk .star b = ∀ c ∈ b, c ≠ '>' from rfl] at hseg
        rw [List.flatten_cons, List.append_assoc] at hv
        unfold reMatch
        apply lazyAux_complete (reMatch r) b.length
        · rw [← hv]; simp
        · rw [← hv, take_len]; exact hseg
        · rw [← hv, drop_len]
          exact ih l₂.flatten (l₂.flatten ++ v) ⟨l₂, htail, rfl⟩ ⟨v, rfl⟩
      | plus =>
        obtain ⟨hbne, hbch⟩ := hseg
        cases b with
        | nil => exact absurd rfl hbne
        | cons c b' =>
          rw [List.flatten_cons, List.cons_append, List.cons_append,
            List.append_assoc] at hv
          rw [← hv]
          simp only [reMatch]
          have hc : c ≠ '>' := hbch c (by simp)
          simp only [hc, if_false]
          have hts : (lazyAux (reMatch r) (b' ++ (l₂.flatten ++ v))).isSome := by
            apply lazyAux_complete (reMatch r) b'.length
            · simp
            · rw [take_len]
              intro x hx
              exact hbch x (by simp [hx])
            · rw [drop_len]
              exact ih l₂.flatten (l₂.flatten ++ v) ⟨l₂, htail, rfl⟩ ⟨v, rfl⟩
          rcases hr : lazyAux (reMatch r) (b' ++ (l₂.flatten ++ v)) with _ | m
          · rw [hr] at hts; simp at hts
          · simp

/-- A `Forall₂ SegOk` decomposition places each literal item of the pattern
as a factor of the flattened match. -/
theorem forall₂_flatten_occ : ∀ (pat : List RItem) (segs : List Str) (L : Str),
    List.Forall₂ SegOk pat segs → .lit L ∈ pat →
    ∃ pre post : Str, segs.flatten = pre ++ L ++ post := by
  intro pat
  induction pat with
  | nil => intro segs L _ hmem; simp at hmem
  | cons item r ih =>
    intro segs L h hmem
    cases h with
    | cons hseg htail =>
      rename_i b l₂
      rcases List.mem_cons.mp hmem with heq | hmem'
      · subst heq
        rw [show SegOk (.lit L) b = (b = L) from rfl] at hseg
        subst hseg
        exact ⟨[], l₂.flatten, by simp⟩
      · obtain ⟨pre, post, hpp⟩ := ih l₂ L htail hmem'
        exact ⟨b ++ pre, post, by simp [hpp]⟩

theorem matchseg_occ (pat : List RItem) (m L : Str) (hm : MatchSeg pat m)
    (hL : .lit L ∈ pat) : ∃ o, occAt m L o ∧ o + L.length ≤ m.length := by
  obtain ⟨segs, hall, hjoin⟩ := hm
  obtain ⟨pre, post, hpp⟩ := forall₂_flatten_occ pat segs L hall hL
  subst hjoin
  rw [hpp]
  refine ⟨pre.length, ?_, by simp only [List.length_append]; omega⟩
  unfold occAt
  rw [List.append_assoc, drop_len, List.isPrefixOf_iff_prefix]
  exact ⟨post, rfl⟩

/-! ### A library on occurrence positions -/

theorem occAt_length (s L : Str) (p : Nat) (h : occAt s L p) (hne : L ≠ []) :
    p + L.length ≤ s.length := by
  unfold occAt at h
  have h1 := (List.isPrefixOf_iff_prefix.mp h).length_le
  simp only [List.length_drop] at h1
  by_cases hp : p ≤ s.length
  · omega
  · exfalso
    rw [List.drop_eq_nil_of_le (by omega)] at h
    rw [List.isPrefixOf_iff_prefix] at h
    exact hne (List.prefix_nil.mp h)

theorem occAt_append_middle (X L Y : Str) : occAt (X ++ L ++ Y) L X.length := by
  unfold occAt
  rw [List.append_assoc, drop_len, List.isPrefixOf_iff_prefix]
  exact ⟨Y, rfl⟩

theorem occAt_drop_shift (s L : Str) (k j : Nat) :
    occAt (s.drop k) L j ↔ occAt s L (k + j) := by
  unfold occAt
  rw [List.drop_drop]

theorem occAt_append_left_iff (X Z L : Str) (p : Nat) (hlen : p + L.length ≤ X.length) :
    occAt (X ++ Z) L p ↔ occAt X L p := by
  unfold occAt
  rw [drop_append_le X Z p (by omega)]
  constructor
  · intro h
    rw [List.isPrefixOf_iff_prefix] at h ⊢
    have hL : L = (X.drop p ++ Z).take L.length := List.prefix_iff_eq_take.mp h
    rw [take_append_le _ _ _ (by simp only [List.length_drop]; omega)] at hL
    exact List.prefix_iff_eq_take.mpr hL
  · intro h
    rw [List.isPrefixOf_iff_prefix] at h ⊢
    obtain ⟨r, hr⟩ := h
    exact ⟨r ++ Z, by rw [← hr, List.append_assoc]⟩

theorem occAt_take_iff (t L : Str) (n o : Nat) (hb : o + L.length ≤ n)
    (hn : n ≤ t.length) : occAt (t.take n) L o ↔ occAt t L o := by
  have hl : (t.take n).length = n := by
    rw [List.length_take]; omega
  have h2 := occAt_append_left_iff (t.take n) (t.drop n) L o (by omega)
  rw [List.take_append_drop] at h2
  exact h2.symm

/-- An occurrence wholly inside the left factor lifts over an appended tail. -/
theorem occAt_prefix_lift (X Z L : Str) (p : Nat) (h : occAt X L p) (hne : L ≠ []) :
    occAt (X ++ Z) L p :=
  (occAt_append_left_iff X Z L p (occAt_length X L p h hne)).mpr h

/-- An occurrence in the right factor shifts by the left factor's length. -/
theorem occAt_suffix_lift (X Z L : Str) (j : Nat) (h : occAt Z L j) :
    occAt (X ++ Z) L (X.length + j) := by
  unfold occAt at h ⊢
  rw [drop_len_add]
  exact h

/-- An occurrence past the left factor restricts to the right factor. -/
theorem occAt_append_right (X Z L : Str) (p : Nat) (hp : X.length ≤ p)
    (h : occAt (X ++ Z) L p) : occAt Z L (p - X.length) := by
  unfold occAt at h ⊢
  rw [show p = X.length + (p - X.length) from by omega, drop_len_add] at h
  exact h

/-- Splitting the occurrence at position `o` out of the carrier string. -/
theorem occAt_decomp (m L : Str) (o : Nat) (h : occAt m L o) :
    m = m.take o ++ L ++ m.drop (o + L.length) := by
  unfold occAt at h
  rw [List.isPrefixOf_iff_prefix] at h
  obtain ⟨r, hr⟩ := h
  conv_lhs => rw [← List.take_append_drop o m]
  rw [List.append_assoc]
  congr 1
  rw [← hr]
  congr 1
  have : m.drop (o + L.length) = (m.drop o).drop L.length := by
    rw [List.drop_drop]
  rw [this, ← hr, drop_len]

theorem occCount_cons (c : Char) (t L : Str) :
    occCount (c :: t) L
      = (if L.isPrefixOf (c :: t) = true then 1 else 0) + occCount t L := by
  unfold occCount
  rw [show (c :: t).length + 1 = (t.length + 1) + 1 from by simp,
    List.range_succ_eq_map]
  rw [List.countP_cons, List.countP_map]
  have : ((fun p => L.isPrefixOf ((c :: t).drop p)) ∘ Nat.succ)
      = (fun p => L.isPrefixOf (t.drop p)) := by
    funext p
    simp [Function.comp, List.drop_succ_cons]
  rw [this]
  simp only [List.drop_zero]
  by_cases hp : L.isPrefixOf (c :: t) = true
  · simp [hp]; omega
  · simp [hp]

theorem occCount_eq_zero_iff (s L : Str) (hne : L ≠ []) :
    occCount s L = 0 ↔ ∀ j, ¬occAt s L j := by
  unfold occCount
  rw [List.countP_eq_zero]
  constructor
  · intro h j hj
    have hb := occAt_length s L j hj hne
    have hjr : j ∈ List.range (s.length + 1) := List.mem_range.mpr (by omega)
    exact absurd hj (by simpa [occAt] using h j hjr)
  · intro h a _
    simpa [occAt] using h a

theorem two_mem_length {α : Type} {l : List α} {a b : α} (ha : a ∈ l) (hb : b ∈ l)
    (hab : a ≠ b) : 2 ≤ l.length := by
  obtain ⟨l1, l2, rfl⟩ := List.append_of_mem ha
  rcases List.mem_append.mp hb with hb1 | hb2
  · have := List.length_pos_of_mem hb1
    simp only [List.length_append, List.length_cons]
    omega
  · rcases List.mem_cons.mp hb2 with rfl | hb3
    · exact absurd rfl hab
    · have := List.length_pos_of_mem hb3
      simp only [List.length_append, List.length_cons]
      omega

theorem occCount_unique (s L : Str) (p : Nat) (hc : occCount s L = 1)
    (hp : occAt s L p) (hne : L ≠ []) : ∀ j, occAt s L j → j = p := by
  intro j hj
  by_contra hjp
  have hbp := occAt_length s L p hp hne
  have hbj := occAt_length s L j hj hne
  have hmem : ∀ q, occAt s L q → q + L.length ≤ s.length →
      q ∈ (List.range (s.length + 1)).filter (fun q => L.isPrefixOf (s.drop q)) := by
    intro q hq hqb
    rw [List.mem_filter]
    exact ⟨List.mem_range.mpr (by omega), by simpa [occAt] using hq⟩
  have h2 : 2 ≤ ((List.range (s.length + 1)).filter
      (fun q => L.isPrefixOf (s.drop q))).length :=
    two_mem_length (hmem j hj hbj) (hmem p hp hbp) hjp
  rw [← List.countP_eq_length_filter] at h2
  unfold occCount at hc
  omega

theorem nodup_singleton_eq {α : Type} {l : List α} {p : α} (hn : l.Nodup) (hp : p ∈ l)
    (hall : ∀ x ∈ l, x = p) : l = [p] := by
  cases l with
  | nil => simp at hp
  | cons x t =>
    have hx : x = p := hall x (by simp)
    subst hx
    have ht : t = [] := by
      rw [List.eq_nil_iff_forall_not_mem]
      intro y hy
      have : y = x := hall y (by simp [hy])
      subst this
      rw [List.nodup_cons] at hn
      exact hn.1 hy
    rw [ht]

theorem occCount_eq_one_of_unique (s L : Str) (p : Nat) (hp : occAt s L p)
    (hu : ∀ j, occAt s L j → j = p) (hne : L ≠ []) : occCount s L = 1 := by
  unfold occCount
  rw [List.countP_eq_length_filter]
  have hbp := occAt_length s L p hp hne
  have heq : (List.range (s.length + 1)).filter
      (fun q => L.isPrefixOf (s.drop q)) = [p] := by
    apply nodup_singleton_eq
    · exact (List.nodup_range _).filter _
    · rw [List.mem_filter]
      exact ⟨List.mem_range.mpr (by omega), by simpa [occAt] using hp⟩
    · intro x hx
      rw [List.mem_filter] at hx
      exact hu x (by simpa [occAt] using hx.2)
  rw [heq]
  rfl

theorem occCount_pos (s L : Str) (p : Nat) (hp : occAt s L p) (hne : L ≠ []) :
    1 ≤ occCount s L := by
  unfold occCount
  rw [List.countP_eq_length_filter]
  have hbp := occAt_length s L p hp hne
  have : p ∈ (List.range (s.length + 1)).filter (fun q => L.isPrefixOf (s.drop q)) := by
    rw [List.mem_filter]
    exact ⟨List.mem_range.mpr (by omega), by simpa [occAt] using hp⟩
  exact List.length_pos_of_mem this

theorem occCount_drop_le (L : Str) : ∀ (k : Nat) (s : Str),
    occCount (s.drop k) L ≤ occCount s L := by
  intro k
  induction k with
  | zero => intro s; simp
  | succ k ih =>
    intro s
    cases s with
    | nil => simp
    | cons c t =>
      rw [List.drop_succ_cons, occCount_cons]
      have := ih t
      omega

theorem occCount_drop_lt (L : Str) (hne : L ≠ []) : ∀ (k : Nat) (s : Str) (p : Nat),
    occAt s L p → p + L.length ≤ k →
    occCount (s.drop k) L + 1 ≤ occCount s L := by
  intro k
  induction k with
  | zero =>
    intro s p _ hpk
    have : L.length = 0 := by omega
    exact absurd (List.eq_nil_of_length_eq_zero this) hne
  | succ k ih =>
    intro s p hocc hpk
    cases s with
    | nil =>
      exfalso
      unfold occAt at hocc
      simp only [List.drop_nil] at hocc
      rw [List.isPrefixOf_iff_prefix] at hocc
      exact hne (List.prefix_nil.mp hocc)
    | cons c t =>
      rw [List.drop_succ_cons, occCount_cons]
      cases p with
      | zero =>
        have hpre : L.isPrefixOf (c :: t) = true := by
          unfold occAt at hocc
          simpa using hocc
        rw [if_pos hpre]
        have := occCount_drop_le L k t
        omega
      | succ p =>
        have hocc' : occAt t L p := by
          unfold occAt at hocc ⊢
          simpa [List.drop_succ_cons] using hocc
        have := ih t p hocc' (by omega)
        omega

/-! ### Search, count, and global substitution -/

theorem reFindAux_some (pat : List RItem) : ∀ (s : Str) (i n : Nat),
    reFindAux pat s = some (i, n) →
    i ≤ s.length ∧ reMatch pat (s.drop i) = some n := by
  intro s
  induction s with
  | nil =>
    intro i n h
    unfold reFindAux at h
    rcases hm : reMatch pat [] with _ | m
    · rw [hm] at h; simp at h
    · rw [hm] at h
      simp only [Option.map_some', Option.some.injEq, Prod.mk.injEq] at h
      obtain ⟨rfl, rfl⟩ := h
      exact ⟨Nat.zero_le _, by simpa using hm⟩
  | cons c t ih =>
    intro i n h
    unfold reFindAux at h
    rcases hm : reMatch pat (c :: t) with _ | m
    · rw [hm] at h
      simp only at h
      rcases hf : reFindAux pat t with _ | pr
      · rw [hf] at h; simp at h
      · rw [hf] at h
        simp only [Option.map_some', Option.some.injEq] at h
        obtain ⟨i', n'⟩ := pr
        obtain ⟨h1, h2⟩ := ih i' n' hf
        rw [Prod.mk.injEq] at h
        obtain ⟨rfl, rfl⟩ := h
        constructor
        · simp only [List.length_cons]; omega
        · simpa [List.drop_succ_cons] using h2
    · rw [hm] at h
      simp only [Option.some.injEq, Prod.mk.injEq] at h
      obtain ⟨rfl, rfl⟩ := h
      exact ⟨Nat.zero_le _, by simpa using hm⟩

theorem reFindAux_none (pat : List RItem) : ∀ (s : Str),
    reFindAux pat s = none → ∀ j, reMatch pat (s.drop j) = none := by
  intro s
  induction s with
  | nil =>
    intro h j
    unfold reFindAux at h
    rcases hm : reMatch pat [] with _ | m
    · simpa using hm
    · rw [hm] at h; simp at h
  | cons c t ih =>
    intro h j
    unfold reFindAux at h
    rcases hm : reMatch pat (c :: t) with _ | m
    · rw [hm] at h
      simp only at h
      rcases hf : reFindAux pat t with _ | pr
      · cases j with
        | zero => simpa using hm
        | succ j => simpa [List.drop_succ_cons] using ih hf j
      · rw [hf] at h; simp at h
    · rw [hm] at h; simp at h

theorem reFindAux_isSome_of (pat : List RItem) (s : Str) (i : Nat)
    (hi : (reMatch pat (s.drop i)).isSome) : (reFindAux pat s).isSome := by
  rcases h : reFindAux pat s with _ | pr
  · rw [reFindAux_none pat s h i] at hi
    simp at hi
  · simp

/-- Any located match region contains an occurrence of each literal item. -/
theorem reFind_occ (pat : List RItem) (L s : Str) (i n : Nat)
    (hL : .lit L ∈ pat) (hf : reFindAux pat s = some (i, n)) :
    ∃ p, occAt s L p ∧ i ≤ p ∧ p + L.length ≤ i + n ∧ i + n ≤ s.length := by
  obtain ⟨hi, hm⟩ := reFindAux_some pat s i n hf
  obtain ⟨hn, hseg⟩ := reMatch_sound pat (s.drop i) n hm
  simp only [List.length_drop] at hn
  obtain ⟨o, ho, hob⟩ := matchseg_occ pat ((s.drop i).take n) L hseg hL
  rw [List.length_take, List.length_drop] at hob
  have hob' : o + L.length ≤ n := by omega
  have ho2 : occAt (s.drop i) L o :=
    (occAt_take_iff (s.drop i) L n o hob' (by simp only [List.length_drop]; omega)).mp ho
  have ho3 : occAt s L (i + o) := (occAt_drop_shift s L i o).mp ho2
  exact ⟨i + o, ho3, by omega, by omega, by omega⟩

theorem reCount_pos (pat : List RItem) (s : Str)
    (h : (reFindAux pat s).isSome) : 1 ≤ reCount pat s := by
  unfold reCount reCountAux
  rcases hf : reFindAux pat s with _ | pr
  · rw [hf] at h; simp at h
  · obtain ⟨i, n⟩ := pr
    simp

theorem reCountAux_succ_none (pat : List RItem) (fuel : Nat) (s : Str)
    (h : reFindAux pat s = none) : reCountAux pat (fuel + 1) s = 0 := by
  unfold reCountAux; rw [h]

theorem reCountAux_succ_some (pat : List RItem) (fuel : Nat) (s : Str) (i n : Nat)
    (h : reFindAux pat s = some (i, n)) :
    reCountAux pat (fuel + 1) s = 1 + reCountAux pat fuel (s.drop (i + max n 1)) := by
  conv_lhs => rw [reCountAux]
  rw [h]

theorem reSubAllAux_succ_some (pat : List RItem) (f : Str → Str) (fuel : Nat)
    (s : Str) (i n : Nat) (h : reFindAux pat s = some (i, n)) :
    reSubAllAux pat f (fuel + 1) s
      = s.take i ++ f ((s.drop i).take n) ++ reSubAllAux pat f fuel (s.drop (i + max n 1)) := by
  conv_lhs => rw [reSubAllAux]
  rw [h]

theorem reCount_find_of_ne_zero (pat : List RItem) (s : Str) (h : reCount pat s ≠ 0) :
    ∃ i n, reFindAux pat s = some (i, n) := by
  rcases hf : reFindAux pat s with _ | pr
  · exfalso
    apply h
    unfold reCount
    exact reCountAux_succ_none pat s.length s hf
  · obtain ⟨i, n⟩ := pr
    exact ⟨i, n, rfl⟩

theorem reCountAux_le_occ (pat : List RItem) (L : Str)
    (hL : .lit L ∈ pat) (hne : L ≠ []) : ∀ (fuel : Nat) (s : Str),
    reCountAux pat fuel s ≤ occCount s L := by
  intro fuel
  induction fuel with
  | zero => intro s; simp [reCountAux]
  | succ fuel ih =>
    intro s
    rcases hf : reFindAux pat s with _ | pr
    · rw [reCountAux_succ_none pat fuel s hf]
      simp
    · obtain ⟨i, n⟩ := pr
      rw [reCountAux_succ_some pat fuel s i n hf]
      obtain ⟨p, hp, hip, hpn, hns⟩ := reFind_occ pat L s i n hL hf
      have hstep := occCount_drop_lt L hne (i + max n 1) s p hp (by omega)
      have := ih (s.drop (i + max n 1))
      omega

theorem reCount_le_occ (pat : List RItem) (L s : Str)
    (hL : .lit L ∈ pat) (hne : L ≠ []) : reCount pat s ≤ occCount s L :=
  reCountAux_le_occ pat L hL hne (s.length + 1) s

theorem reSubAllAux_of_none (pat : List RItem) (f : Str → Str) (fuel : Nat) (s : Str)
    (h : reFindAux pat s = none) : reSubAllAux pat f fuel s = s := by
  cases fuel with
  | zero => rfl
  | succ fuel => unfold reSubAllAux; rw [h]

theorem reSubAll_of_none (pat : List RItem) (f : Str → Str) (s : Str)
    (h : reFindAux pat s = none) : reSubAll pat f s = s :=
  reSubAllAux_of_none pat f (s.length + 1) s h

/-- If the anchor literal of a pattern occurs nowhere, the substitution is
the identity. -/
theorem reSubAll_id_of_no_occ (pat : List RItem) (f : Str → Str) (L s : Str)
    (hL : .lit L ∈ pat) (h : ∀ j, ¬occAt s L j) : reSubAll pat f s = s := by
  rcases hf : reFindAux pat s with _ | pr
  · exact reSubAll_of_none pat f s hf
  · obtain ⟨i, n⟩ := pr
    obtain ⟨p, hp, _, _, _⟩ := reFind_occ pat L s i n hL hf
    exact absurd hp (h p)

theorem reCount_eq_zero_of_no_occ (pat : List RItem) (L s : Str)
    (hL : .lit L ∈ pat) (h : ∀ j, ¬occAt s L j) : reCount pat s = 0 := by
  rcases hf : reFindAux pat s with _ | pr
  · unfold reCount
    exact reCountAux_succ_none pat s.length s hf
  · obtain ⟨i, n⟩ := pr
    obtain ⟨p, hp, _, _, _⟩ := reFind_occ pat L s i n hL hf
    exact absurd hp (h p)

/-- The master lemma: if the pattern's anchor literal `L` occurs exactly once
in `s`, the pattern matches somewhere, and the callback turns the matched
region `x ++ L ++ y` into `x ++ L2 ++ y`, then the global substitution
replaces exactly that occurrence of `L` by `L2`. -/
theorem reSubAll_single (pat : List RItem) (f : Str → Str) (L L2 s : Str) (q : Nat)
    (hL : .lit L ∈ pat) (hne : L ≠ [])
    (hq : occAt s L q)
    (hu : ∀ j, occAt s L j → j = q)
    (hm : ∃ i, (reMatch pat (s.drop i)).isSome)
    (hf : ∀ x y P S : Str, s = P ++ (x ++ L ++ y) ++ S → P.length + x.length = q →
          f (x ++ L ++ y) = x ++ L2 ++ y) :
    reSubAll pat f s = s.take q ++ L2 ++ s.drop (q + L.length) := by
  obtain ⟨i0, hsome⟩ := hm
  have hfind := reFindAux_isSome_of pat s i0 hsome
  rcases hfa : reFindAux pat s with _ | pr
  · rw [hfa] at hfind; simp at hfind
  obtain ⟨i, n⟩ := pr
  obtain ⟨p, hp, hip, hpn, hns⟩ := reFind_occ pat L s i n hL hfa
  have hpq : p = q := hu p hp
  subst hpq
  obtain ⟨hi, hmt⟩ := reFindAux_some pat s i n hfa
  obtain ⟨hnle, hseg⟩ := reMatch_sound pat (s.drop i) n hmt
  simp only [List.length_drop] at hnle
  -- the matched region
  set m : Str := (s.drop i).take n with hmdef
  have hmlen : m.length = n := by
    rw [hmdef, List.length_take, List.length_drop]; omega
  have hoccm : occAt m L (p - i) := by
    rw [hmdef]
    rw [occAt_take_iff (s.drop i) L n (p - i) (by omega) (by simp only [List.length_drop]; omega)]
    rw [occAt_drop_shift]
    rw [show i + (p - i) = p from by omega]
    exact hp
  set x : Str := m.take (p - i) with hxdef
  set y : Str := m.drop ((p - i) + L.length) with hydef
  have hxy : m = x ++ L ++ y := occAt_decomp m L (p - i) hoccm
  have hxlen : x.length = p - i := by
    rw [hxdef, List.length_take]; omega
  have hsplit2 : s.drop i = m ++ s.drop (i + n) := by
    rw [hmdef]
    conv_lhs => rw [← List.take_append_drop n (s.drop i)]
    rw [List.drop_drop]
  have hglobal : s = s.take i ++ (x ++ L ++ y) ++ s.drop (i + n) := by
    rw [← hxy]
    conv_lhs => rw [← List.take_append_drop i s, hsplit2]
    rw [List.append_assoc]
  have hpos : (s.take i).length + x.length = p := by
    rw [hxlen, List.length_take, Nat.min_eq_left hi]
    omega
  have hfm : f (x ++ L ++ y) = x ++ L2 ++ y := hf x y (s.take i) (s.drop (i + n)) hglobal hpos
  have hn1 : 1 ≤ n := by
    have : L.length ≠ 0 := by
      intro hz
      exact hne (List.eq_nil_of_length_eq_zero hz)
    omega
  have hmax : max n 1 = n := by omega
  -- the tail after the region has no further occurrence
  have htail : ∀ j, ¬occAt (s.drop (i + n)) L j := by
    intro j hj
    rw [occAt_drop_shift] at hj
    have hL1 : 1 ≤ L.length := List.length_pos.mpr hne
    have := hu _ hj
    omega
  have htailfind : reFindAux pat (s.drop (i + n)) = none := by
    rcases hft : reFindAux pat (s.drop (i + n)) with _ | pr2
    · rfl
    · obtain ⟨i2, n2⟩ := pr2
      obtain ⟨p2, hp2, _, _, _⟩ := reFind_occ pat L _ i2 n2 hL hft
      exact absurd hp2 (htail p2)
  unfold reSubAll
  rw [show s.length + 1 = s.length + 1 from rfl]
  rw [reSubAllAux_succ_some pat f s.length s i n hfa]
  rw [hmax, ← hmdef, hxy, hfm]
  rw [reSubAllAux_of_none pat f _ _ htailfind]
  -- assemble both sides
  have htk : s.take p = s.take i ++ x := by
    conv_lhs => rw [hglobal]
    rw [show (s.take i ++ (x ++ L ++ y) ++ s.drop (i + n))
        = (s.take i ++ x) ++ (L ++ y ++ s.drop (i + n)) from by simp [List.append_assoc]]
    rw [show p = ((s.take i ++ x)).length from by simp only [List.length_append]; omega]
    rw [take_len]
  have hdr : s.drop (p + L.length) = y ++ s.drop (i + n) := by
    conv_lhs => rw [hglobal]
    rw [show (s.take i ++ (x ++ L ++ y) ++ s.drop (i + n))
        = ((s.take i ++ x) ++ L) ++ (y ++ s.drop (i + n)) from by simp [List.append_assoc]]
    rw [show p + L.length = ((s.take i ++ x) ++ L).length from by
      simp only [List.length_append]; omega]
    rw [drop_len]
  rw [htk, hdr]
  simp [List.append_assoc]

/-! ### `str.replace` under unique or absent occurrences -/

theorem strReplaceAux_id (pat repl : Str) : ∀ (fuel : Nat) (s : Str),
    (∀ j, ¬occAt s pat j) → strReplaceAux pat repl fuel s = s := by
  intro fuel
  induction fuel with
  | zero => intro s _; cases s <;> rfl
  | succ fuel ih =>
    intro s h
    cases s with
    | nil => rfl
    | cons c t =>
      have h0 : ¬(pat.isPrefixOf (c :: t) = true) := by
        have := h 0
        unfold occAt at this
        simpa using this
      unfold strReplaceAux
      rw [if_neg (by intro hc; exact h0 hc.2)]
      congr 1
      apply ih
      intro j hj
      apply h (j + 1)
      unfold occAt at hj ⊢
      simpa [List.drop_succ_cons] using hj

theorem strReplace_id (s pat repl : Str) (h : ∀ j, ¬occAt s pat j) :
    strReplace s pat repl = s :=
  strReplaceAux_id pat repl s.length s h

theorem strReplaceAux_single (pat repl : Str) (hne : pat ≠ []) :
    ∀ (fuel : Nat) (s : Str) (q : Nat), s.length ≤ fuel →
    occAt s pat q → (∀ j, occAt s pat j → j = q) →
    strReplaceAux pat repl fuel s = s.take q ++ repl ++ s.drop (q + pat.length) := by
  intro fuel
  induction fuel with
  | zero =>
    intro s q hlen hocc _
    have hsnil : s = [] := List.eq_nil_of_length_eq_zero (by omega)
    subst hsnil
    exfalso
    unfold occAt at hocc
    simp only [List.drop_nil] at hocc
    rw [List.isPrefixOf_iff_prefix] at hocc
    exact hne (List.prefix_nil.mp hocc)
  | succ fuel ih =>
    intro s q hlen hocc huniq
    cases s with
    | nil =>
      exfalso
      unfold occAt at hocc
      simp only [List.drop_nil] at hocc
      rw [List.isPrefixOf_iff_prefix] at hocc
      exact hne (List.prefix_nil.mp hocc)
    | cons c t =>
      cases q with
      | zero =>
        have hpre : pat.isPrefixOf (c :: t) = true := by
          unfold occAt at hocc
          simpa using hocc
        unfold strReplaceAux
        rw [if_pos ⟨hne, hpre⟩]
        have hrest : ∀ j, ¬occAt ((c :: t).drop pat.length) pat j := by
          intro j hj
          rw [occAt_drop_shift] at hj
          have := huniq _ hj
          have hp1 : 1 ≤ pat.length := List.length_pos.mpr hne
          omega
        rw [strReplaceAux_id pat repl fuel _ hrest]
        simp
      | succ q =>
        have hnp : ¬(pat.isPrefixOf (c :: t) = true) := by
          intro hpre
          have : occAt (c :: t) pat 0 := by
            unfold occAt; simpa using hpre
          have := huniq 0 this
          omega
        unfold strReplaceAux
        rw [if_neg (by intro hc; exact hnp hc.2)]
        have hocc' : occAt t pat q := by
          unfold occAt at hocc ⊢
          simpa [List.drop_succ_cons] using hocc
        have huniq' : ∀ j, occAt t pat j → j = q := by
          intro j hj
          have : occAt (c :: t) pat (j + 1) := by
            unfold occAt at hj ⊢
            simpa [List.drop_succ_cons] using hj
          have := huniq _ this
          omega
        rw [ih t q (by simp at hlen; omega) hocc' huniq']
        simp only [List.take_succ_cons, List.cons_append, List.drop_succ_cons]
        rw [show q + 1 + pat.length = (q + pat.length) + 1 from by omega]
        simp [List.drop_succ_cons]

theorem strReplace_single (s pat repl : Str) (q : Nat) (hne : pat ≠ [])
    (hocc : occAt s pat q) (huniq : ∀ j, occAt s pat j → j = q) :
    strReplace s pat repl = s.take q ++ repl ++ s.drop (q + pat.length) :=
  strReplaceAux_single pat repl hne s.length s q (Nat.le_refl _) hocc huniq

/-! ### Identifier literals cannot overlap

`id=<q>v<q>` literals for quote characters and quote-free, `=`-free values
occur in a string carrying one such literal either wholly besides it or
exactly on it. -/

/-- The two quote characters of the patterns. -/
def quoteChar (c : Char) : Prop := c = dqc ∨ c = sqc

instance (c : Char) : Decidable (quoteChar c) := by
  unfold quoteChar; infer_instance

/-- A nonempty identifier value containing no quote character and no `=`. -/
def safeId (v : Str) : Prop := v ≠ [] ∧ ∀ c ∈ v, c ≠ dqc ∧ c ≠ sqc ∧ c ≠ '='

instance (v : Str) : Decidable (safeId v) := by
  unfold safeId; infer_instance

/-- The other quote character. -/
def otherQuote (q : Char) : Char := if q = dqc then sqc else dqc

theorem mkId_eq_cons (q : Char) (v : Str) :
    mkId q v = 'i' :: 'd' :: '=' :: q :: (v ++ [q]) := rfl

theorem mkId_ne_nil (q : Char) (v : Str) : mkId q v ≠ [] := by
  rw [mkId_eq_cons]; simp

theorem mkId_length (q : Char) (v : Str) : (mkId q v).length = v.length + 5 := by
  rw [mkId_eq_cons]; simp

theorem occAt_getElem (s L : Str) (p : Nat) (h : occAt s L p) (k : Nat)
    (hk : k < L.length) : s[p + k]? = L[k]? := by
  unfold occAt at h
  rw [List.isPrefixOf_iff_prefix] at h
  obtain ⟨r, hr⟩ := h
  have h1 : s[p + k]? = (s.drop p)[k]? := by
    rw [List.getElem?_drop]
  rw [h1, ← hr, List.getElem?_append_left hk]

theorem mkId_quote_pos (q : Char) (v : Str) (hq : quoteChar q) (hv : safeId v)
    (k : Nat) (c : Char) (hk : (mkId q v)[k]? = some c) (hc : quoteChar c) :
    (k = 3 ∨ k = v.length + 4) ∧ c = q := by
  rw [mkId_eq_cons] at hk
  rcases k with _ | k
  · simp only [List.getElem?_cons_zero, Option.some.injEq] at hk
    subst hk
    rcases hc with hc | hc <;> exact absurd hc (by decide)
  rcases k with _ | k
  · simp only [List.getElem?_cons_succ, List.getElem?_cons_zero, Option.some.injEq] at hk
    subst hk
    rcases hc with hc | hc <;> exact absurd hc (by decide)
  rcases k with _ | k
  · simp only [List.getElem?_cons_succ, List.getElem?_cons_zero, Option.some.injEq] at hk
    subst hk
    rcases hc with hc | hc <;> exact absurd hc (by decide)
  rcases k with _ | k
  · simp only [List.getElem?_cons_succ, List.getElem?_cons_zero, Option.some.injEq] at hk
    subst hk
    exact ⟨Or.inl rfl, rfl⟩
  · simp only [List.getElem?_cons_succ] at hk
    rcases Nat.lt_trichotomy k v.length with hlt | heq | hgt
    · rw [List.getElem?_append_left hlt] at hk
      have hmem : c ∈ v := List.getElem?_mem hk
      obtain ⟨h1, h2, _⟩ := hv.2 c hmem
      rcases hc with hc | hc
      · exact absurd hc h1
      · exact absurd hc h2
    · subst heq
      rw [List.getElem?_concat_length] at hk
      simp only [Option.some.injEq] at hk
      subst hk
      exact ⟨Or.inr (by omega), rfl⟩
    · exfalso
      rw [List.getElem?_eq_none (by simp; omega)] at hk
      simp at hk

theorem mkId_eq_pos (q : Char) (v : Str) (hq : quoteChar q) (hv : safeId v)
    (k : Nat) (hk : (mkId q v)[k]? = some '=') : k = 2 := by
  rw [mkId_eq_cons] at hk
  rcases k with _ | k
  · simp only [List.getElem?_cons_zero, Option.some.injEq] at hk
    exact absurd hk.symm (by decide)
  rcases k with _ | k
  · simp only [List.getElem?_cons_succ, List.getElem?_cons_zero, Option.some.injEq] at hk
    exact absurd hk.symm (by decide)
  rcases k with _ | k
  · rfl
  rcases k with _ | k
  · simp only [List.getElem?_cons_succ, List.getElem?_cons_zero, Option.some.injEq] at hk
    subst hk
    rcases hq with hq | hq <;> exact absurd hq (by decide)
  · simp only [List.getElem?_cons_succ] at hk
    exfalso
    rcases Nat.lt_trichotomy k v.length with hlt | heq | hgt
    · rw [List.getElem?_append_left hlt] at hk
      have hmem : ('=' : Char) ∈ v := List.getElem?_mem hk
      exact (hv.2 _ hmem).2.2 rfl
    · subst heq
      rw [List.getElem?_concat_length] at hk
      simp only [Option.some.injEq] at hk
      rcases hq with hq | hq <;> (subst hk; exact absurd hq (by decide))
    · rw [List.getElem?_eq_none (by simp; omega)] at hk
      simp at hk

theorem mkId_get_3 (q : Char) (v : Str) : (mkId q v)[3]? = some q := by
  rw [mkId_eq_cons, show (3 : Nat) = 0 + 1 + 1 + 1 from rfl]
  simp only [List.getElem?_cons_succ, List.getElem?_cons_zero]

theorem mkId_get_2 (q : Char) (v : Str) : (mkId q v)[2]? = some '=' := by
  rw [mkId_eq_cons, show (2 : Nat) = 0 + 1 + 1 from rfl]
  simp only [List.getElem?_cons_succ, List.getElem?_cons_zero]

theorem mkId_get_last (q : Char) (v : Str) : (mkId q v)[v.length + 4]? = some q := by
  rw [mkId_eq_cons]
  rw [show v.length + 4 = (((v.length + 1) + 1) + 1) + 1 from by omega]
  simp only [List.getElem?_cons_succ]
  rw [List.getElem?_concat_length]

/-- Two identifier literals in the same carrier either lie wholly besides
each other or coincide. -/
theorem mkId_no_overlap (q1 q2 : Char) (v1 v2 X Y : Str) (p : Nat)
    (hq1 : quoteChar q1) (hq2 : quoteChar q2)
    (hv1 : safeId v1) (hv2 : safeId v2)
    (hocc : occAt (X ++ mkId q2 v2 ++ Y) (mkId q1 v1) p) :
    p + (mkId q1 v1).length ≤ X.length
    ∨ X.length + (mkId q2 v2).length ≤ p
    ∨ (q1 = q2 ∧ v1 = v2 ∧ p = X.length) := by
  have hl1 : 1 ≤ v1.length := List.length_pos.mpr hv1.1
  have hl2 : 1 ≤ v2.length := List.length_pos.mpr hv2.1
  have hocc2 : occAt (X ++ mkId q2 v2 ++ Y) (mkId q2 v2) X.length :=
    occAt_append_middle X _ Y
  have E1 : ∀ k, k < v1.length + 5 →
      (X ++ mkId q2 v2 ++ Y)[p + k]? = (mkId q1 v1)[k]? := by
    intro k hk
    exact occAt_getElem _ _ p hocc k (by rw [mkId_length]; omega)
  have E2 : ∀ k, k < v2.length + 5 →
      (X ++ mkId q2 v2 ++ Y)[X.length + k]? = (mkId q2 v2)[k]? := by
    intro k hk
    exact occAt_getElem _ _ X.length hocc2 k (by rw [mkId_length]; omega)
  by_cases hL : p + (v1.length + 5) ≤ X.length
  · left; rw [mkId_length]; omega
  by_cases hR : X.length + (v2.length + 5) ≤ p
  · right; left; rw [mkId_length]; omega
  push_neg at hL hR
  right; right
  rcases Nat.lt_trichotomy p X.length with hpa | hpa | hpa
  · exfalso
    by_cases hsub : p + v1.length ≤ X.length + v2.length
    · -- the tail quote of the first literal lands inside the second literal
      have hx1 : (X ++ mkId q2 v2 ++ Y)[p + (v1.length + 4)]? = some q1 := by
        rw [E1 (v1.length + 4) (by omega), mkId_get_last]
      have hx2 : (mkId q2 v2)[p + v1.length + 4 - X.length]? = some q1 := by
        rw [← E2 (p + v1.length + 4 - X.length) (by omega)]
        rw [show X.length + (p + v1.length + 4 - X.length) = p + (v1.length + 4)
          from by omega]
        exact hx1
      obtain ⟨hj, hq12⟩ := mkId_quote_pos q2 v2 hq2 hv2 _ q1 hx2 hq1
      rcases hj with hj | hj
      · -- the first literal ends four characters into the second: its value
        -- would have to contain the equals sign of the second literal
        have hy1 : (X ++ mkId q2 v2 ++ Y)[X.length + 2]? = some '=' := by
          rw [E2 2 (by omega), mkId_get_2]
        have hy2 : (mkId q1 v1)[v1.length + 3]? = some '=' := by
          rw [← E1 (v1.length + 3) (by omega)]
          rw [show p + (v1.length + 3) = X.length + 2 from by omega]
          exact hy1
        have := mkId_eq_pos q1 v1 hq1 hv1 _ hy2
        omega
      · -- both literals end together: the opening quote of the second lands
        -- strictly inside the first
        have hy1 : (X ++ mkId q2 v2 ++ Y)[X.length + 3]? = some q2 := by
          rw [E2 3 (by omega), mkId_get_3]
        have hy2 : (mkId q1 v1)[X.length + 3 - p]? = some q2 := by
          rw [← E1 (X.length + 3 - p) (by omega)]
          rw [show p + (X.length + 3 - p) = X.length + 3 from by omega]
          exact hy1
        obtain ⟨hk, hq21⟩ := mkId_quote_pos q1 v1 hq1 hv1 _ q2 hy2 hq2
        omega
    · -- the second literal is strictly inside the first: its opening quote
      -- lands strictly inside the first
      have hy1 : (X ++ mkId q2 v2 ++ Y)[X.length + 3]? = some q2 := by
        rw [E2 3 (by omega), mkId_get_3]
      have hy2 : (mkId q1 v1)[X.length + 3 - p]? = some q2 := by
        rw [← E1 (X.length + 3 - p) (by omega)]
        rw [show p + (X.length + 3 - p) = X.length + 3 from by omega]
        exact hy1
      obtain ⟨hk, hq21⟩ := mkId_quote_pos q1 v1 hq1 hv1 _ q2 hy2 hq2
      omega
  · -- both literals start at the same position
    rcases Nat.lt_trichotomy v1.length v2.length with hvl | hvl | hvl
    · exfalso
      have hx1 : (X ++ mkId q2 v2 ++ Y)[p + (v1.length + 4)]? = some q1 := by
        rw [E1 (v1.length + 4) (by omega), mkId_get_last]
      have hx2 : (mkId q2 v2)[v1.length + 4]? = some q1 := by
        rw [← E2 (v1.length + 4) (by omega)]
        rw [show X.length + (v1.length + 4) = p + (v1.length + 4) from by omega]
        exact hx1
      obtain ⟨hj, hq12⟩ := mkId_quote_pos q2 v2 hq2 hv2 _ q1 hx2 hq1
      omega
    · -- equal lengths: the literals coincide pointwise
      have h12 : mkId q1 v1 = mkId q2 v2 := by
        apply List.ext_getElem?
        intro n
        by_cases hn : n < v1.length + 5
        · rw [← E1 n hn, ← E2 n (by omega),
            show X.length + n = p + n from by omega]
        · rw [List.getElem?_eq_none (by rw [mkId_length]; omega),
            List.getElem?_eq_none (by rw [mkId_length]; omega)]
      rw [mkId_eq_cons, mkId_eq_cons] at h12
      simp only [List.cons.injEq, true_and] at h12
      obtain ⟨hqq, happ⟩ := h12
      subst hqq
      have hvv : v1 = v2 := by
        have t1 := take_len v1 [q1]
        rw [happ, show v1.length = v2.length from hvl, take_len] at t1
        exact t1.symm
      exact ⟨rfl, hvv, hpa⟩
    · exfalso
      have hx1 : (X ++ mkId q2 v2 ++ Y)[X.length + (v2.length + 4)]? = some q2 := by
        rw [E2 (v2.length + 4) (by omega), mkId_get_last]
      have hx2 : (mkId q1 v1)[v2.length + 4]? = some q2 := by
        rw [← E1 (v2.length + 4) (by omega)]
        rw [show p + (v2.length + 4) = X.length + (v2.length + 4) from by omega]
        exact hx1
      obtain ⟨hk, hq21⟩ := mkId_quote_pos q1 v1 hq1 hv1 _ q2 hx2 hq2
      omega
  · exfalso
    by_cases hsub : X.length + v2.length ≤ p + v1.length
    · -- the tail quote of the second literal lands inside the first literal
      have hx1 : (X ++ mkId q2 v2 ++ Y)[X.length + (v2.length + 4)]? = some q2 := by
        rw [E2 (v2.length + 4) (by omega), mkId_get_last]
      have hx2 : (mkId q1 v1)[X.length + v2.length + 4 - p]? = some q2 := by
        rw [← E1 (X.length + v2.length + 4 - p) (by omega)]
        rw [show p + (X.length + v2.length + 4 - p) = X.length + (v2.length + 4)
          from by omega]
        exact hx1
      obtain ⟨hk, hq21⟩ := mkId_quote_pos q1 v1 hq1 hv1 _ q2 hx2 hq2
      rcases hk with hk | hk
      · -- the second literal ends four characters into the first: its value
        -- would have to contain the equals sign of the first literal
        have hy1 : (X ++ mkId q2 v2 ++ Y)[p + 2]? = some '=' := by
          rw [E1 2 (by omega), mkId_get_2]
        have hy2 : (mkId q2 v2)[v2.length + 3]? = some '=' := by
          rw [← E2 (v2.length + 3) (by omega)]
          rw [show X.length + (v2.length + 3) = p + 2 from by omega]
          exact hy1
        have := mkId_eq_pos q2 v2 hq2 hv2 _ hy2
        omega
      · -- both literals end together: the opening quote of the first lands
        -- strictly inside the second
        have hy1 : (X ++ mkId q2 v2 ++ Y)[p + 3]? = some q1 := by
          rw [E1 3 (by omega), mkId_get_3]
        have hy2 : (mkId q2 v2)[p + 3 - X.length]? = some q1 := by
          rw [← E2 (p + 3 - X.length) (by omega)]
          rw [show X.length + (p + 3 - X.length) = p + 3 from by omega]
          exact hy1
        obtain ⟨hj, hq12⟩ := mkId_quote_pos q2 v2 hq2 hv2 _ q1 hy2 hq1
        omega
    · -- the first literal is strictly inside the second
      have hy1 : (X ++ mkId q2 v2 ++ Y)[p + 3]? = some q1 := by
        rw [E1 3 (by omega), mkId_get_3]
      have hy2 : (mkId q2 v2)[p + 3 - X.length]? = some q1 := by
        rw [← E2 (p + 3 - X.length) (by omega)]
        rw [show X.length + (p + 3 - X.length) = p + 3 from by omega]
        exact hy1
      obtain ⟨hj, hq12⟩ := mkId_quote_pos q2 v2 hq2 hv2 _ q1 hy2 hq1
      omega

/-- Occurrences of an identifier literal in `P ++ mkId q2 v2 ++ S` lie wholly
in `P`, wholly in `S`, or exactly on the middle literal. -/
theorem occ_swap_cases (q1 q2 : Char) (v1 v2 P S : Str) (j : Nat)
    (hq1 : quoteChar q1) (hq2 : quoteChar q2)
    (hv1 : safeId v1) (hv2 : safeId v2)
    (hocc : occAt (P ++ mkId q2 v2 ++ S) (mkId q1 v1) j) :
    (j + (mkId q1 v1).length ≤ P.length ∧ occAt P (mkId q1 v1) j)
    ∨ (∃ j2, j = P.length + (mkId q2 v2).length + j2 ∧ occAt S (mkId q1 v1) j2)
    ∨ (q1 = q2 ∧ v1 = v2 ∧ j = P.length) := by
  rcases mkId_no_overlap q1 q2 v1 v2 P S j hq1 hq2 hv1 hv2 hocc with h | h | h
  · left
    refine ⟨h, ?_⟩
    rw [List.append_assoc] at hocc
    exact (occAt_append_left_iff P _ _ j h).mp hocc
  · right; left
    refine ⟨j - (P.length + (mkId q2 v2).length), by omega, ?_⟩
    have h2 := occAt_append_right (P ++ mkId q2 v2) S (mkId q1 v1) j
      (by simp only [List.length_append]; omega) hocc
    simpa only [List.length_append] using h2
  · right; right; exact h

/-- If the surrounding pieces carry no occurrence of `mkId q1 v1` and the
centre literal differs from it, the swapped string carries none either. -/
theorem no_occ_swapped (q q1 : Char) (old new X Y : Str)
    (hq : quoteChar q) (hq1 : quoteChar q1) (hold : safeId old) (hnew : safeId new)
    (hdiff : ¬(q1 = q ∧ old = new))
    (hX : ∀ j, ¬occAt X (mkId q1 old) j)
    (hY : ∀ j, ¬occAt Y (mkId q1 old) j) :
    ∀ j, ¬occAt (X ++ mkId q new ++ Y) (mkId q1 old) j := by
  intro j hj
  rcases occ_swap_cases q1 q old new X Y j hq1 hq hold hnew hj with h | h | h
  · exact hX j h.2
  · obtain ⟨j2, _, hj2⟩ := h
    exact hY j2 hj2
  · exact hdiff ⟨h.1, h.2.1⟩

/-! ### The shape of a rewritten opening tag -/

/-- An opening tag of the matched shape: `<` then `>`-free filler, the
identifier attribute and the `class` attribute in either order, then `>`. -/
def mkTag (idFirst : Bool) (q : Char) (u v w val : Str) : Str :=
  if idFirst then
    '<' :: (u ++ mkId q val ++ v ++ classLit q ++ w ++ ['>'])
  else
    '<' :: (u ++ classLit q ++ v ++ mkId q val ++ w ++ ['>'])

theorem tri_take (X M Y : Str) : (X ++ M ++ Y).take X.length = X := by
  rw [List.append_assoc, take_len]

theorem tri_drop (X M Y : Str) : (X ++ M ++ Y).drop (X.length + M.length) = Y := by
  rw [List.append_assoc, drop_len_add, drop_len]

theorem otherQuote_dqc : otherQuote dqc = sqc := by decide

theorem otherQuote_sqc : otherQuote sqc = dqc := by decide

theorem reFind_none_of_count_zero (pat : List RItem) (s : Str)
    (h : reCount pat s = 0) : reFindAux pat s = none := by
  rcases hf : reFindAux pat s with _ | pr
  · rfl
  · exfalso
    have := reCount_pos pat s (by rw [hf]; simp)
    omega

theorem lit_mem_patIdClass (q : Char) (old : Str) :
    RItem.lit (mkId q old) ∈ patIdClass q old := by
  simp [patIdClass]

theorem lit_mem_patClassId (q : Char) (old : Str) :
    RItem.lit (mkId q old) ∈ patClassId q old := by
  simp [patClassId]

theorem tkkCount_eq (s old : Str) : tkkCount s old
    = reCount (patIdClass dqc old) s + reCount (patClassId dqc old) s
    + reCount (patIdClass sqc old) s + reCount (patClassId sqc old) s := by
  simp [tkkCount, updatePatterns]
  omega

theorem mkTag_matchseg (idFirst : Bool) (q : Char) (u v w val : Str)
    (hu : ∀ c ∈ u, c ≠ '>') (hv : ∀ c ∈ v, c ≠ '>') (hw : ∀ c ∈ w, c ≠ '>') :
    MatchSeg (if idFirst then patIdClass q val else patClassId q val)
      (mkTag idFirst q u v w val) := by
  cases idFirst
  · refine ⟨[['<'], u, classLit q, v, mkId q val, w, ['>']], ?_, ?_⟩
    · refine List.Forall₂.cons rfl (List.Forall₂.cons hu (List.Forall₂.cons rfl
        (List.Forall₂.cons hv (List.Forall₂.cons rfl (List.Forall₂.cons hw
        (List.Forall₂.cons rfl List.Forall₂.nil))))))
    · simp [mkTag, List.flatten_cons, List.append_assoc]
  · refine ⟨[['<'], u, mkId q val, v, classLit q, w, ['>']], ?_, ?_⟩
    · refine List.Forall₂.cons rfl (List.Forall₂.cons hu (List.Forall₂.cons rfl
        (List.Forall₂.cons hv (List.Forall₂.cons rfl (List.Forall₂.cons hw
        (List.Forall₂.cons rfl List.Forall₂.nil))))))
    · simp [mkTag, List.flatten_cons, List.append_assoc]

theorem tag_match_exists (idFirst : Bool) (q : Char) (A u v w B val : Str)
    (hu : ∀ c ∈ u, c ≠ '>') (hv : ∀ c ∈ v, c ≠ '>') (hw : ∀ c ∈ w, c ≠ '>') :
    ∃ i, (reMatch (if idFirst then patIdClass q val else patClassId q val)
      ((A ++ mkTag idFirst q u v w val ++ B).drop i)).isSome := by
  refine ⟨A.length, ?_⟩
  rw [List.append_assoc, drop_len]
  exact reMatch_complete _ _ _ (mkTag_matchseg idFirst q u v w val hu hv hw) ⟨B, rfl⟩

theorem tag_decomp_idFirst (q : Char) (A u v w B val : Str) :
    A ++ mkTag true q u v w val ++ B
      = (A ++ '<' :: u) ++ mkId q val ++ (v ++ classLit q ++ w ++ '>' :: B) := by
  simp [mkTag, List.append_assoc]

theorem tag_decomp_classFirst (q : Char) (A u v w B val : Str) :
    A ++ mkTag false q u v w val ++ B
      = (A ++ '<' :: (u ++ classLit q ++ v)) ++ mkId q val ++ (w ++ '>' :: B) := by
  simp [mkTag, List.append_assoc]

/-! ### The callback on a matched region -/

theorem replaceId_swap_dq (old new x y : Str) (hold : safeId old) (hnew : safeId new)
    (hu : ∀ j, occAt (x ++ mkId dqc old ++ y) (mkId dqc old) j → j = x.length)
    (hn : ∀ j, ¬occAt (x ++ mkId dqc old ++ y) (mkId sqc old) j) :
    replaceId old new (x ++ mkId dqc old ++ y) = x ++ mkId dqc new ++ y := by
  unfold replaceId
  rw [strReplace_single _ _ _ x.length (mkId_ne_nil _ _) (occAt_append_middle x _ y) hu]
  rw [tri_take, tri_drop]
  apply strReplace_id
  -- every single-quoted occurrence in the swapped region would restrict to
  -- `x` or `y` and lift back into the original region
  have hX : ∀ j, ¬occAt x (mkId sqc old) j := by
    intro j hj
    apply hn j
    rw [List.append_assoc]
    exact occAt_prefix_lift x _ _ j hj (mkId_ne_nil _ _)
  have hY : ∀ j, ¬occAt y (mkId sqc old) j := by
    intro j hj
    exact hn _ (occAt_suffix_lift (x ++ mkId dqc old) y _ j hj)
  exact no_occ_swapped dqc sqc old new x y (Or.inl rfl) (Or.inr rfl) hold hnew
    (by intro hcon; exact absurd hcon.1 (by decide)) hX hY

theorem replaceId_swap_sq (old new x y : Str) (hold : safeId old) (hnew : safeId new)
    (hu : ∀ j, occAt (x ++ mkId sqc old ++ y) (mkId sqc old) j → j = x.length)
    (hn : ∀ j, ¬occAt (x ++ mkId sqc old ++ y) (mkId dqc old) j) :
    replaceId old new (x ++ mkId sqc old ++ y) = x ++ mkId sqc new ++ y := by
  unfold replaceId
  rw [strReplace_id _ _ _ hn]
  rw [strReplace_single _ _ _ x.length (mkId_ne_nil _ _) (occAt_append_middle x _ y) hu]
  rw [tri_take, tri_drop]

theorem quoteChar_other (q : Char) (h : quoteChar q) : quoteChar (otherQuote q) := by
  rcases h with rfl | rfl
  · rw [otherQuote_dqc]; exact Or.inr rfl
  · rw [otherQuote_sqc]; exact Or.inl rfl

theorem otherQuote_ne (q : Char) (h : quoteChar q) : otherQuote q ≠ q := by
  rcases h with rfl | rfl
  · rw [otherQuote_dqc]; decide
  · rw [otherQuote_sqc]; decide

/-- The workhorse: on a text that decomposes around a unique identifier
literal whose matcher pattern matches somewhere, `update_svg_id` swaps exactly
that literal and reports no error. -/
theorem update_swap_core (q : Char) (X Y old new : Str) (matcher : List RItem)
    (hq : quoteChar q) (hold : safeId old) (hnew : safeId new)
    (hmem : matcher = patIdClass q old ∨ matcher = patClassId q old)
    (hmatch : ∃ i, (reMatch matcher ((X ++ mkId q old ++ Y).drop i)).isSome)
    (h1 : occCount (X ++ mkId q old ++ Y) (mkId q old) = 1)
    (h2 : occCount (X ++ mkId q old ++ Y) (mkId (otherQuote q) old) = 0)
    (hcnt : tkkCount (X ++ mkId q old ++ Y) old = 1) :
    update_svg_id (X ++ mkId q old ++ Y) old new = (X ++ mkId q new ++ Y, none) := by
  have hoccX : occAt (X ++ mkId q old ++ Y) (mkId q old) X.length :=
    occAt_append_middle X _ Y
  have huniq : ∀ j, occAt (X ++ mkId q old ++ Y) (mkId q old) j → j = X.length :=
    occCount_unique _ _ _ h1 hoccX (mkId_ne_nil q old)
  have hbar : ∀ j, ¬occAt (X ++ mkId q old ++ Y) (mkId (otherQuote q) old) j :=
    (occCount_eq_zero_iff _ _ (mkId_ne_nil _ old)).mp h2
  have hm5 : 1 ≤ (mkId q old).length := by rw [mkId_length]; omega
  have hXold : ∀ j, ¬occAt X (mkId q old) j := by
    intro j hj
    have h3 : occAt (X ++ mkId q old ++ Y) (mkId q old) j := by
      rw [List.append_assoc]
      exact occAt_prefix_lift X _ _ j hj (mkId_ne_nil q old)
    have h4 := huniq j h3
    have h5 := occAt_length X _ j hj (mkId_ne_nil q old)
    omega
  have hYold : ∀ j, ¬occAt Y (mkId q old) j := by
    intro j hj
    have h3 := occAt_suffix_lift (X ++ mkId q old) Y _ j hj
    have h4 := huniq _ h3
    simp only [List.length_append] at h4
    omega
  have hXbar : ∀ j, ¬occAt X (mkId (otherQuote q) old) j := by
    intro j hj
    apply hbar j
    rw [List.append_assoc]
    exact occAt_prefix_lift X _ _ j hj (mkId_ne_nil _ old)
  have hYbar : ∀ j, ¬occAt Y (mkId (otherQuote q) old) j := by
    intro j hj
    exact hbar _ (occAt_suffix_lift (X ++ mkId q old) Y _ j hj)
  obtain ⟨i0, hsome0⟩ := hmatch
  have hfind : (reFindAux matcher (X ++ mkId q old ++ Y)).isSome :=
    reFindAux_isSome_of _ _ i0 hsome0
  have hcm : 1 ≤ reCount matcher (X ++ mkId q old ++ Y) := reCount_pos _ _ hfind
  have hsum := tkkCount_eq (X ++ mkId q old ++ Y) old
  have hrepl : ∀ x y P S : Str,
      X ++ mkId q old ++ Y = P ++ (x ++ mkId q old ++ y) ++ S →
      P.length + x.length = X.length →
      replaceId old new (x ++ mkId q old ++ y) = x ++ mkId q new ++ y := by
    intro x y P S hsp hpos
    have hmu : ∀ j, occAt (x ++ mkId q old ++ y) (mkId q old) j → j = x.length := by
      intro j hj
      have l1 : occAt (P ++ (x ++ mkId q old ++ y)) (mkId q old) (P.length + j) :=
        occAt_suffix_lift P _ _ j hj
      have l2 : occAt (X ++ mkId q old ++ Y) (mkId q old) (P.length + j) := by
        rw [hsp]
        exact occAt_prefix_lift _ S _ _ l1 (mkId_ne_nil _ _)
      have := huniq _ l2
      omega
    have hmn : ∀ j, ¬occAt (x ++ mkId q old ++ y) (mkId (otherQuote q) old) j := by
      intro j hj
      apply hbar (P.length + j)
      rw [hsp]
      exact occAt_prefix_lift _ S _ _ (occAt_suffix_lift P _ _ j hj) (mkId_ne_nil _ _)
    rcases (show q = dqc ∨ q = sqc from hq) with rfl | rfl
    · rw [otherQuote_dqc] at hmn
      exact replaceId_swap_dq old new x y hold hnew hmu hmn
    · rw [otherQuote_sqc] at hmn
      exact replaceId_swap_sq old new x y hold hnew hmu hmn
  have hLmem2 : RItem.lit (mkId q old) ∈ matcher := by
    rcases hmem with rfl | rfl
    · exact lit_mem_patIdClass q old
    · exact lit_mem_patClassId q old
  have emain : reSubAll matcher (replaceId old new) (X ++ mkId q old ++ Y)
      = X ++ mkId q new ++ Y := by
    have e := reSubAll_single matcher (replaceId old new) (mkId q old) (mkId q new)
      (X ++ mkId q old ++ Y) X.length hLmem2 (mkId_ne_nil _ _) hoccX huniq
      ⟨i0, hsome0⟩ hrepl
    rw [tri_take, tri_drop] at e
    exact e
  have hc'bar : ∀ j, ¬occAt (X ++ mkId q new ++ Y) (mkId (otherQuote q) old) j :=
    no_occ_swapped q (otherQuote q) old new X Y hq (quoteChar_other q hq) hold hnew
      (fun hcon => otherQuote_ne q hq hcon.1) hXbar hYbar
  have hc'same : old ≠ new → ∀ j, ¬occAt (X ++ mkId q new ++ Y) (mkId q old) j :=
    fun hon => no_occ_swapped q q old new X Y hq hq hold hnew
      (fun hcon => hon hcon.2) hXold hYold
  unfold update_svg_id
  rw [hcnt]
  rw [if_neg (by omega)]
  simp only [updatePatterns, List.foldl_cons, List.foldl_nil]
  rcases (show q = dqc ∨ q = sqc from hq) with rfl | rfl
  · rw [otherQuote_dqc] at hc'bar hbar
    rcases hmem with rfl | rfl
    · -- matcher is the double-quoted id-then-class pattern
      have hc2 : reCount (patClassId dqc old) (X ++ mkId dqc old ++ Y) = 0 := by omega
      have e2 : reSubAll (patClassId dqc old) (replaceId old new)
          (X ++ mkId dqc new ++ Y) = X ++ mkId dqc new ++ Y := by
        by_cases hon : old = new
        · subst hon
          exact reSubAll_of_none _ _ _ (reFind_none_of_count_zero _ _ hc2)
        · exact reSubAll_id_of_no_occ _ _ (mkId dqc old) _
            (lit_mem_patClassId dqc old) (hc'same hon)
      have e3 : reSubAll (patIdClass sqc old) (replaceId old new)
          (X ++ mkId dqc new ++ Y) = X ++ mkId dqc new ++ Y :=
        reSubAll_id_of_no_occ _ _ (mkId sqc old) _ (lit_mem_patIdClass sqc old) hc'bar
      have e4 : reSubAll (patClassId sqc old) (replaceId old new)
          (X ++ mkId dqc new ++ Y) = X ++ mkId dqc new ++ Y :=
        reSubAll_id_of_no_occ _ _ (mkId sqc old) _ (lit_mem_patClassId sqc old) hc'bar
      rw [emain, e2, e3, e4]
    · -- matcher is the double-quoted class-then-id pattern
      have hc1 : reCount (patIdClass dqc old) (X ++ mkId dqc old ++ Y) = 0 := by omega
      have e1 : reSubAll (patIdClass dqc old) (replaceId old new)
          (X ++ mkId dqc old ++ Y) = X ++ mkId dqc old ++ Y :=
        reSubAll_of_none _ _ _ (reFind_none_of_count_zero _ _ hc1)
      have e3 : reSubAll (patIdClass sqc old) (replaceId old new)
          (X ++ mkId dqc new ++ Y) = X ++ mkId dqc new ++ Y :=
        reSubAll_id_of_no_occ _ _ (mkId sqc old) _ (lit_mem_patIdClass sqc old) hc'bar
      have e4 : reSubAll (patClassId sqc old) (replaceId old new)
          (X ++ mkId dqc new ++ Y) = X ++ mkId dqc new ++ Y :=
        reSubAll_id_of_no_occ _ _ (mkId sqc old) _ (lit_mem_patClassId sqc old) hc'bar
      rw [e1, emain, e3, e4]
  · rw [otherQuote_sqc] at hc'bar hbar
    rcases hmem with rfl | rfl
    · -- matcher is the single-quoted id-then-class pattern
      have e1 : reSubAll (patIdClass dqc old) (replaceId old new)
          (X ++ mkId sqc old ++ Y) = X ++ mkId sqc old ++ Y :=
        reSubAll_id_of_no_occ _ _ (mkId dqc old) _ (lit_mem_patIdClass dqc old) hbar
      have e2 : reSubAll (patClassId dqc old) (replaceId old new)
          (X ++ mkId sqc old ++ Y) = X ++ mkId sqc old ++ Y :=
        reSubAll_id_of_no_occ _ _ (mkId dqc old) _ (lit_mem_patClassId dqc old) hbar
      have hc4 : reCount (patClassId sqc old) (X ++ mkId sqc old ++ Y) = 0 := by omega
      have e4 : reSubAll (patClassId sqc old) (replaceId old new)
          (X ++ mkId sqc new ++ Y) = X ++ mkId sqc new ++ Y := by
        by_cases hon : old = new
        · subst hon
          exact reSubAll_of_none _ _ _ (reFind_none_of_count_zero _ _ hc4)
        · exact reSubAll_id_of_no_occ _ _ (mkId sqc old) _
            (lit_mem_patClassId sqc old) (hc'same hon)
      rw [e1, e2, emain, e4]
    · -- matcher is the single-quoted class-then-id pattern
      have e1 : reSubAll (patIdClass dqc old) (replaceId old new)
          (X ++ mkId sqc old ++ Y) = X ++ mkId sqc old ++ Y :=
        reSubAll_id_of_no_occ _ _ (mkId dqc old) _ (lit_mem_patIdClass dqc old) hbar
      have e2 : reSubAll (patClassId dqc old) (replaceId old new)
          (X ++ mkId sqc old ++ Y) = X ++ mkId sqc old ++ Y :=
        reSubAll_id_of_no_occ _ _ (mkId dqc old) _ (lit_mem_patClassId dqc old) hbar
      have hc3 : reCount (patIdClass sqc old) (X ++ mkId sqc old ++ Y) = 0 := by omega
      have e3 : reSubAll (patIdClass sqc old) (replaceId old new)
          (X ++ mkId sqc old ++ Y) = X ++ mkId sqc old ++ Y :=
        reSubAll_of_none _ _ _ (reFind_none_of_count_zero _ _ hc3)
      rw [e1, e2, e3, emain]

/-- C8 : For a text of the shape `A ++ tag ++ B`, where `tag` is an opening
tag carrying `class=<q>tkk<q>` and `id=<q>old<q>` in either attribute order
and either quoting style, such that the literal `id=<q>old<q>` occurs exactly
once in the whole text, never occurs with the other quote character, and the
count of qualifying tags is one, `update_svg_id` rewrites exactly that
identifier attribute to the new value, preserves `A`, `B` and the rest of the
tag verbatim, and reports no error.  (The original claim had no occurrence
hypotheses; it fails when the old value also appears in another attribute
such as `data-id` of the same tag, see the counterexample.) -/
theorem C8_frame_rewrite (idFirst : Bool) (q : Char) (A u v w B old new : Str)
    (hq : quoteChar q) (hold : safeId old) (hnew : safeId new)
    (hu : ∀ c ∈ u, c ≠ '>') (hv : ∀ c ∈ v, c ≠ '>') (hw : ∀ c ∈ w, c ≠ '>')
    (h1 : occCount (A ++ mkTag idFirst q u v w old ++ B) (mkId q old) = 1)
    (h2 : occCount (A ++ mkTag idFirst q u v w old ++ B) (mkId (otherQuote q) old) = 0)
    (hcnt : tkkCount (A ++ mkTag idFirst q u v w old ++ B) old = 1) :
    update_svg_id (A ++ mkTag idFirst q u v w old ++ B) old new
      = (A ++ mkTag idFirst q u v w new ++ B, none) := by
  have hmatch := tag_match_exists idFirst q A u v w B old hu hv hw
  cases idFirst
  · rw [tag_decomp_classFirst] at h1 h2 hcnt ⊢
    rw [tag_decomp_classFirst q A u v w B new]
    refine update_swap_core q _ _ old new (patClassId q old) hq hold hnew (Or.inr rfl)
      ?_ h1 h2 hcnt
    rw [← tag_decomp_classFirst]
    simpa using hmatch
  · rw [tag_decomp_idFirst] at h1 h2 hcnt ⊢
    rw [tag_decomp_idFirst q A u v w B new]
    refine update_swap_core q _ _ old new (patIdClass q old) hq hold hnew (Or.inl rfl)
      ?_ h1 h2 hcnt
    rw [← tag_decomp_idFirst]
    simpa using hmatch

/-- The input of the C8 counterexample: the old value also appears in a
`data-id` attribute of the same tag. -/
def c8content : Str :=
  "<g class=".data ++ dqc :: ("tkk".data ++ dqc :: (" id=".data ++ dqc :: ("old".data
    ++ dqc :: (" data-id=".data ++ dqc :: ("old".data ++ dqc :: ">".data)))))

/-- What the code produces: both attributes are rewritten. -/
def c8out : Str :=
  "<g class=".data ++ dqc :: ("tkk".data ++ dqc :: (" id=".data ++ dqc :: ("new".data
    ++ dqc :: (" data-id=".data ++ dqc :: ("new".data ++ dqc :: ">".data)))))

/-- What the original claim demands: only the identifier attribute changes. -/
def c8claimOut : Str :=
  "<g class=".data ++ dqc :: ("tkk".data ++ dqc :: (" id=".data ++ dqc :: ("new".data
    ++ dqc :: (" data-id=".data ++ dqc :: ("old".data ++ dqc :: ">".data)))))

/-- C8 counterexample: on `<g class="tkk" id="old" data-id="old">` the rewriter
also changes the `data-id` attribute, so the "every other attribute is
preserved verbatim" part of the original claim is false. -/
theorem C8_frame_rewrite_counterexample :
    update_svg_id c8content "old".data "new".data = (c8out, none)
    ∧ c8out ≠ c8claimOut :=
  ⟨by decide, by decide⟩

/-- C8 witness: a concrete instance of the amended frame theorem. -/
theorem C8_frame_rewrite_witness :
    update_svg_id ("before ".data ++ mkTag false dqc "g ".data " ".data [] "a".data
        ++ " after".data) "a".data "b".data
      = ("before ".data ++ mkTag false dqc "g ".data " ".data [] "b".data
        ++ " after".data, none) :=
  C8_frame_rewrite false dqc "before ".data "g ".data " ".data [] " after".data
    "a".data "b".data (Or.inl rfl) (by decide) (by decide) (by decide) (by decide)
    (by decide) (by decide) (by decide) (by decide)

/-! ### Transferring a match between identifier values -/

theorem region_decomp (s : Str) (i n : Nat) :
    s = s.take i ++ (s.drop i).take n ++ s.drop (i + n) := by
  conv_lhs => rw [← List.take_append_drop i s]
  rw [List.append_assoc]
  congr 1
  conv_lhs => rw [← List.take_append_drop n (s.drop i)]
  rw [List.drop_drop]

/-- Replacing the identifier value inside a match of the id-then-class
pattern yields a match of the same pattern for the other value. -/
theorem patIdClass_swap (q : Char) (a b m : Str) (hm : MatchSeg (patIdClass q a) m) :
    ∃ x y, m = x ++ mkId q a ++ y ∧ MatchSeg (patIdClass q b) (x ++ mkId q b ++ y) := by
  obtain ⟨segs, hall, hjoin⟩ := hm
  rw [patIdClass] at hall
  rw [List.forall₂_cons_left_iff] at hall
  obtain ⟨s1, segs, h1, hall, rfl⟩ := hall
  rw [List.forall₂_cons_left_iff] at hall
  obtain ⟨s2, segs, h2, hall, rfl⟩ := hall
  rw [List.forall₂_cons_left_iff] at hall
  obtain ⟨s3, segs, h3, hall, rfl⟩ := hall
  rw [List.forall₂_cons_left_iff] at hall
  obtain ⟨s4, segs, h4, hall, rfl⟩ := hall
  rw [List.forall₂_cons_left_iff] at hall
  obtain ⟨s5, segs, h5, hall, rfl⟩ := hall
  rw [List.forall₂_cons_left_iff] at hall
  obtain ⟨s6, segs, h6, hall, rfl⟩ := hall
  rw [List.forall₂_cons_left_iff] at hall
  obtain ⟨s7, segs, h7, hall, rfl⟩ := hall
  rw [List.forall₂_nil_left_iff] at hall
  subst hall
  rw [show SegOk (.lit "<".data) s1 = (s1 = "<".data) from rfl] at h1
  rw [show SegOk (.lit (mkId q a)) s3 = (s3 = mkId q a) from rfl] at h3
  rw [show SegOk (.lit (classLit q)) s5 = (s5 = classLit q) from rfl] at h5
  rw [show SegOk (.lit ">".data) s7 = (s7 = ">".data) from rfl] at h7
  subst h1; subst h3; subst h5; subst h7
  refine ⟨"<".data ++ s2, s4 ++ classLit q ++ s6 ++ ">".data, ?_, ?_⟩
  · rw [hjoin]
    simp [List.flatten_cons, List.append_assoc]
  · refine ⟨["<".data, s2, mkId q b, s4, classLit q, s6, ">".data], ?_, ?_⟩
    · exact List.Forall₂.cons rfl (List.Forall₂.cons h2 (List.Forall₂.cons rfl
        (List.Forall₂.cons h4 (List.Forall₂.cons rfl (List.Forall₂.cons h6
        (List.Forall₂.cons rfl List.Forall₂.nil))))))
    · simp [List.flatten_cons, List.append_assoc]

/-- Replacing the identifier value inside a match of the class-then-id
pattern yields a match of the same pattern for the other value. -/
theorem patClassId_swap (q : Char) (a b m : Str) (hm : MatchSeg (patClassId q a) m) :
    ∃ x y, m = x ++ mkId q a ++ y ∧ MatchSeg (patClassId q b) (x ++ mkId q b ++ y) := by
  obtain ⟨segs, hall, hjoin⟩ := hm
  rw [patClassId] at hall
  rw [List.forall₂_cons_left_iff] at hall
  obtain ⟨s1, segs, h1, hall, rfl⟩ := hall
  rw [List.forall₂_cons_left_iff] at hall
  obtain ⟨s2, segs, h2, hall, rfl⟩ := hall
  rw [List.forall₂_cons_left_iff] at hall
  obtain ⟨s3, segs, h3, hall, rfl⟩ := hall
  rw [List.forall₂_cons_left_iff] at hall
  obtain ⟨s4, segs, h4, hall, rfl⟩ := hall
  rw [List.forall₂_cons_left_iff] at hall
  obtain ⟨s5, segs, h5, hall, rfl⟩ := hall
  rw [List.forall₂_cons_left_iff] at hall
  obtain ⟨s6, segs, h6, hall, rfl⟩ := hall
  rw [List.forall₂_cons_left_iff] at hall
  obtain ⟨s7, segs, h7, hall, rfl⟩ := hall
  rw [List.forall₂_nil_left_iff] at hall
  subst hall
  rw [show SegOk (.lit "<".data) s1 = (s1 = "<".data) from rfl] at h1
  rw [show SegOk (.lit (classLit q)) s3 = (s3 = classLit q) from rfl] at h3
  rw [show SegOk (.lit (mkId q a)) s5 = (s5 = mkId q a) from rfl] at h5
  rw [show SegOk (.lit ">".data) s7 = (s7 = ">".data) from rfl] at h7
  subst h1; subst h3; subst h5; subst h7
  refine ⟨"<".data ++ s2 ++ classLit q ++ s4, s6 ++ ">".data, ?_, ?_⟩
  · rw [hjoin]
    simp [List.flatten_cons, List.append_assoc]
  · refine ⟨["<".data, s2, classLit q, s4, mkId q b, s6, ">".data], ?_, ?_⟩
    · exact List.Forall₂.cons rfl (List.Forall₂.cons h2 (List.Forall₂.cons rfl
        (List.Forall₂.cons h4 (List.Forall₂.cons rfl (List.Forall₂.cons h6
        (List.Forall₂.cons rfl List.Forall₂.nil))))))
    · simp [List.flatten_cons, List.append_assoc]

/-- If a pattern anchored on `mkId q a` matches somewhere in
`X ++ mkId q a ++ Y` where that literal occurs only at position `X.length`,
and matched regions admit a value surgery, then the surgered pattern matches
in `X ++ mkId q b ++ Y`. -/
theorem transfer_match_gen (patA patB : List RItem) (q : Char) (a b X Y : Str)
    (hsurg : ∀ m, MatchSeg patA m →
      ∃ x y, m = x ++ mkId q a ++ y ∧ MatchSeg patB (x ++ mkId q b ++ y))
    (huniq : ∀ j, occAt (X ++ mkId q a ++ Y) (mkId q a) j → j = X.length)
    (hfind : (reFindAux patA (X ++ mkId q a ++ Y)).isSome) :
    ∃ i, (reMatch patB ((X ++ mkId q b ++ Y).drop i)).isSome := by
  rcases hfa : reFindAux patA (X ++ mkId q a ++ Y) with _ | pr
  · rw [hfa] at hfind; simp at hfind
  obtain ⟨i, n⟩ := pr
  obtain ⟨hi, hmt⟩ := reFindAux_some _ _ i n hfa
  obtain ⟨hnle, hseg⟩ := reMatch_sound _ _ n hmt
  simp only [List.length_drop] at hnle
  obtain ⟨x, y, hmx, hmb⟩ := hsurg _ hseg
  have hmlen : (((X ++ mkId q a ++ Y).drop i).take n).length = n := by
    rw [List.length_take, List.length_drop, Nat.min_eq_left (by omega)]
  have hxb : x.length + (mkId q a).length ≤ n := by
    have hc := congrArg List.length hmx
    rw [hmlen] at hc
    simp only [List.length_append] at hc
    omega
  have hmid : occAt (((X ++ mkId q a ++ Y).drop i).take n) (mkId q a) x.length := by
    rw [hmx]; exact occAt_append_middle x _ y
  have hocc1 : occAt ((X ++ mkId q a ++ Y).drop i) (mkId q a) x.length :=
    (occAt_take_iff _ _ n x.length hxb (by simp only [List.length_drop]; omega)).mp hmid
  have hocc2 : occAt (X ++ mkId q a ++ Y) (mkId q a) (i + x.length) :=
    (occAt_drop_shift _ _ i x.length).mp hocc1
  have hiX : i + x.length = X.length := huniq _ hocc2
  have hreg := region_decomp (X ++ mkId q a ++ Y) i n
  rw [hmx] at hreg
  have hTlen : ((X ++ mkId q a ++ Y).take i).length = i := by
    rw [List.length_take, Nat.min_eq_left hi]
  have hform : X ++ mkId q a ++ Y
      = ((X ++ mkId q a ++ Y).take i ++ x) ++ mkId q a
        ++ (y ++ (X ++ mkId q a ++ Y).drop (i + n)) := by
    conv_lhs => rw [hreg]
    simp [List.append_assoc]
  have hX2 : X = (X ++ mkId q a ++ Y).take i ++ x := by
    have e1 : (X ++ mkId q a ++ Y).take X.length = X := tri_take X _ Y
    have e2 : (X ++ mkId q a ++ Y).take X.length
        = (X ++ mkId q a ++ Y).take i ++ x := by
      conv_lhs => rw [hform]
      rw [show X.length = ((X ++ mkId q a ++ Y).take i ++ x).length from by
        simp only [List.length_append]; omega]
      exact tri_take _ _ _
    rw [e1] at e2
    exact e2
  have hY2 : Y = y ++ (X ++ mkId q a ++ Y).drop (i + n) := by
    have e1 : (X ++ mkId q a ++ Y).drop (X.length + (mkId q a).length) = Y :=
      tri_drop X _ Y
    have e2 : (X ++ mkId q a ++ Y).drop (X.length + (mkId q a).length)
        = y ++ (X ++ mkId q a ++ Y).drop (i + n) := by
      conv_lhs => rw [hform]
      rw [show X.length + (mkId q a).length
          = ((X ++ mkId q a ++ Y).take i ++ x).length + (mkId q a).length from by
        simp only [List.length_append]; omega]
      exact tri_drop _ _ _
    rw [e1] at e2
    exact e2
  set T : Str := (X ++ mkId q a ++ Y).take i with hTdef
  set R : Str := (X ++ mkId q a ++ Y).drop (i + n) with hRdef
  refine ⟨T.length, ?_⟩
  have hdrop : (X ++ mkId q b ++ Y).drop T.length = x ++ mkId q b ++ (y ++ R) := by
    conv_lhs => rw [hX2, hY2]
    rw [show (T ++ x) ++ mkId q b ++ (y ++ R) = T ++ (x ++ mkId q b ++ (y ++ R)) from by
      simp [List.append_assoc]]
    exact drop_len _ _
  rw [hdrop]
  apply reMatch_complete _ (x ++ mkId q b ++ y) _ hmb
  exact ⟨R, by simp [List.append_assoc]⟩

/-- The round-trip core: under the occurrence hypotheses, rewriting
`old → new` and then `new → old` restores the text, both without error. -/
theorem roundtrip_core (q : Char) (X Y old new : Str) (shape : Bool)
    (hq : quoteChar q) (hold : safeId old) (hnew : safeId new)
    (hmO : ∃ i, (reMatch (if shape then patIdClass q old else patClassId q old)
        ((X ++ mkId q old ++ Y).drop i)).isSome)
    (hmN : ∃ i, (reMatch (if shape then patIdClass q new else patClassId q new)
        ((X ++ mkId q new ++ Y).drop i)).isSome)
    (h1 : occCount (X ++ mkId q old ++ Y) (mkId q old) = 1)
    (h2 : occCount (X ++ mkId q old ++ Y) (mkId (otherQuote q) old) = 0)
    (hcnt : tkkCount (X ++ mkId q old ++ Y) old = 1)
    (hn1 : occCount (X ++ mkId q old ++ Y) (mkId q new) = 0)
    (hn2 : occCount (X ++ mkId q old ++ Y) (mkId (otherQuote q) new) = 0) :
    update_svg_id (X ++ mkId q old ++ Y) old new = (X ++ mkId q new ++ Y, none)
    ∧ update_svg_id (X ++ mkId q new ++ Y) new old = (X ++ mkId q old ++ Y, none) := by
  have hnew1 := (occCount_eq_zero_iff _ _ (mkId_ne_nil q new)).mp hn1
  have hnew2 := (occCount_eq_zero_iff _ _ (mkId_ne_nil _ new)).mp hn2
  have hoccXold : occAt (X ++ mkId q old ++ Y) (mkId q old) X.length :=
    occAt_append_middle X _ Y
  have hXnew : ∀ j, ¬occAt X (mkId q new) j := by
    intro j hj
    apply hnew1 j
    rw [List.append_assoc]
    exact occAt_prefix_lift X _ _ j hj (mkId_ne_nil _ _)
  have hYnew : ∀ j, ¬occAt Y (mkId q new) j := fun j hj =>
    hnew1 _ (occAt_suffix_lift (X ++ mkId q old) Y _ j hj)
  have hXnewbar : ∀ j, ¬occAt X (mkId (otherQuote q) new) j := by
    intro j hj
    apply hnew2 j
    rw [List.append_assoc]
    exact occAt_prefix_lift X _ _ j hj (mkId_ne_nil _ _)
  have hYnewbar : ∀ j, ¬occAt Y (mkId (otherQuote q) new) j := fun j hj =>
    hnew2 _ (occAt_suffix_lift (X ++ mkId q old) Y _ j hj)
  have huniqN : ∀ j, occAt (X ++ mkId q new ++ Y) (mkId q new) j → j = X.length := by
    intro j hj
    rcases occ_swap_cases q q new new X Y j hq hq hnew hnew hj with h | h | h
    · exact absurd h.2 (hXnew j)
    · obtain ⟨j2, _, hj2⟩ := h
      exact absurd hj2 (hYnew j2)
    · exact h.2.2
  have h1' : occCount (X ++ mkId q new ++ Y) (mkId q new) = 1 :=
    occCount_eq_one_of_unique _ _ X.length (occAt_append_middle X _ Y) huniqN
      (mkId_ne_nil _ _)
  have h2' : occCount (X ++ mkId q new ++ Y) (mkId (otherQuote q) new) = 0 := by
    rw [occCount_eq_zero_iff _ _ (mkId_ne_nil _ new)]
    exact no_occ_swapped q (otherQuote q) new new X Y hq (quoteChar_other q hq)
      hnew hnew (fun hcon => otherQuote_ne q hq hcon.1) hXnewbar hYnewbar
  have hcO : 1 ≤ reCount (if shape then patIdClass q old else patClassId q old)
      (X ++ mkId q old ++ Y) := by
    obtain ⟨iO, hOsome⟩ := hmO
    exact reCount_pos _ _ (reFindAux_isSome_of _ _ iO hOsome)
  have hcN : 1 ≤ reCount (if shape then patIdClass q new else patClassId q new)
      (X ++ mkId q new ++ Y) := by
    obtain ⟨iN, hNsome⟩ := hmN
    exact reCount_pos _ _ (reFindAux_isSome_of _ _ iN hNsome)
  have hsumO := tkkCount_eq (X ++ mkId q old ++ Y) old
  have hsumN := tkkCount_eq (X ++ mkId q new ++ Y) new
  rcases (show q = dqc ∨ q = sqc from hq) with rfl | rfl
  · rw [otherQuote_dqc] at h2 hn2 h2'
    cases shape
    · rw [if_neg (by decide)] at hmO hmN hcO hcN
      have hfwd := update_swap_core dqc X Y old new (patClassId dqc old) hq hold hnew
        (Or.inr rfl) hmO h1 (by rw [otherQuote_dqc]; exact h2) hcnt
      have hzb1 : reCount (patIdClass sqc new) (X ++ mkId dqc new ++ Y) = 0 := by
        have hle := reCount_le_occ (patIdClass sqc new) (mkId sqc new)
          (X ++ mkId dqc new ++ Y) (lit_mem_patIdClass sqc new) (mkId_ne_nil _ _)
        omega
      have hzb2 : reCount (patClassId sqc new) (X ++ mkId dqc new ++ Y) = 0 := by
        have hle := reCount_le_occ (patClassId sqc new) (mkId sqc new)
          (X ++ mkId dqc new ++ Y) (lit_mem_patClassId sqc new) (mkId_ne_nil _ _)
        omega
      have hcross : reCount (patIdClass dqc new) (X ++ mkId dqc new ++ Y) = 0 := by
        by_contra hcr
        obtain ⟨i1, n1, hf1⟩ := reCount_find_of_ne_zero _ _ hcr
        obtain ⟨i2, h2m⟩ := transfer_match_gen (patIdClass dqc new) (patIdClass dqc old)
          dqc new old X Y (fun m hm => patIdClass_swap dqc new old m hm) huniqN
          (by rw [hf1]; simp)
        have hccr := reCount_pos _ _ (reFindAux_isSome_of _ _ i2 h2m)
        omega
      have hmatch1 : reCount (patClassId dqc new) (X ++ mkId dqc new ++ Y) = 1 := by
        have hle := reCount_le_occ (patClassId dqc new) (mkId dqc new)
          (X ++ mkId dqc new ++ Y) (lit_mem_patClassId dqc new) (mkId_ne_nil _ _)
        omega
      have hcnt' : tkkCount (X ++ mkId dqc new ++ Y) new = 1 := by omega
      have hbwd := update_swap_core dqc X Y new old (patClassId dqc new) hq hnew hold
        (Or.inr rfl) hmN h1' (by rw [otherQuote_dqc]; exact h2') hcnt'
      exact ⟨hfwd, hbwd⟩
    · rw [if_pos rfl] at hmO hmN hcO hcN
      have hfwd := update_swap_core dqc X Y old new (patIdClass dqc old) hq hold hnew
        (Or.inl rfl) hmO h1 (by rw [otherQuote_dqc]; exact h2) hcnt
      have hzb1 : reCount (patIdClass sqc new) (X ++ mkId dqc new ++ Y) = 0 := by
        have hle := reCount_le_occ (patIdClass sqc new) (mkId sqc new)
          (X ++ mkId dqc new ++ Y) (lit_mem_patIdClass sqc new) (mkId_ne_nil _ _)
        omega
      have hzb2 : reCount (patClassId sqc new) (X ++ mkId dqc new ++ Y) = 0 := by
        have hle := reCount_le_occ (patClassId sqc new) (mkId sqc new)
          (X ++ mkId dqc new ++ Y) (lit_mem_patClassId sqc new) (mkId_ne_nil _ _)
        omega
      have hcross : reCount (patClassId dqc new) (X ++ mkId dqc new ++ Y) = 0 := by
        by_contra hcr
        obtain ⟨i1, n1, hf1⟩ := reCount_find_of_ne_zero _ _ hcr
        obtain ⟨i2, h2m⟩ := transfer_match_gen (patClassId dqc new) (patClassId dqc old)
          dqc new old X Y (fun m hm => patClassId_swap dqc new old m hm) huniqN
          (by rw [hf1]; simp)
        have hccr := reCount_pos _ _ (reFindAux_isSome_of _ _ i2 h2m)
        omega
      have hmatch1 : reCount (patIdClass dqc new) (X ++ mkId dqc new ++ Y) = 1 := by
        have hle := reCount_le_occ (patIdClass dqc new) (mkId dqc new)
          (X ++ mkId dqc new ++ Y) (lit_mem_patIdClass dqc new) (mkId_ne_nil _ _)
        omega
      have hcnt' : tkkCount (X ++ mkId dqc new ++ Y) new = 1 := by omega
      have hbwd := update_swap_core dqc X Y new old (patIdClass dqc new) hq hnew hold
        (Or.inl rfl) hmN h1' (by rw [otherQuote_dqc]; exact h2') hcnt'
      exact ⟨hfwd, hbwd⟩
  · rw [otherQuote_sqc] at h2 hn2 h2'
    cases shape
    · rw [if_neg (by decide)] at hmO hmN hcO hcN
      have hfwd := update_swap_core sqc X Y old new (patClassId sqc old) hq hold hnew
        (Or.inr rfl) hmO h1 (by rw [otherQuote_sqc]; exact h2) hcnt
      have hzb1 : reCount (patIdClass dqc new) (X ++ mkId sqc new ++ Y) = 0 := by
        have hle := reCount_le_occ (patIdClass dqc new) (mkId dqc new)
          (X ++ mkId sqc new ++ Y) (lit_mem_patIdClass dqc new) (mkId_ne_nil _ _)
        omega
      have hzb2 : reCount (patClassId dqc new) (X ++ mkId sqc new ++ Y) = 0 := by
        have hle := reCount_le_occ (patClassId dqc new) (mkId dqc new)
          (X ++ mkId sqc new ++ Y) (lit_mem_patClassId dqc new) (mkId_ne_nil _ _)
        omega
      have hcross : reCount (patIdClass sqc new) (X ++ mkId sqc new ++ Y) = 0 := by
        by_contra hcr
        obtain ⟨i1, n1, hf1⟩ := reCount_find_of_ne_zero _ _ hcr
        obtain ⟨i2, h2m⟩ := transfer_match_gen (patIdClass sqc new) (patIdClass sqc old)
          sqc new old X Y (fun m hm => patIdClass_swap sqc new old m hm) huniqN
          (by rw [hf1]; simp)
        have hccr := reCount_pos _ _ (reFindAux_isSome_of _ _ i2 h2m)
        omega
      have hmatch1 : reCount (patClassId sqc new) (X ++ mkId sqc new ++ Y) = 1 := by
        have hle := reCount_le_occ (patClassId sqc new) (mkId sqc new)
          (X ++ mkId sqc new ++ Y) (lit_mem_patClassId sqc new) (mkId_ne_nil _ _)
        omega
      have hcnt' : tkkCount (X ++ mkId sqc new ++ Y) new = 1 := by omega
      have hbwd := update_swap_core sqc X Y new old (patClassId sqc new) hq hnew hold
        (Or.inr rfl) hmN h1' (by rw [otherQuote_sqc]; exact h2') hcnt'
      exact ⟨hfwd, hbwd⟩
    · rw [if_pos rfl] at hmO hmN hcO hcN
      have hfwd := update_swap_core sqc X Y old new (patIdClass sqc old) hq hold hnew
        (Or.inl rfl) hmO h1 (by rw [otherQuote_sqc]; exact h2) hcnt
      have hzb1 : reCount (patIdClass dqc new) (X ++ mkId sqc new ++ Y) = 0 := by
        have hle := reCount_le_occ (patIdClass dqc new) (mkId dqc new)
          (X ++ mkId sqc new ++ Y) (lit_mem_patIdClass dqc new) (mkId_ne_nil _ _)
        omega
      have hzb2 : reCount (patClassId dqc new) (X ++ mkId sqc new ++ Y) = 0 := by
        have hle := reCount_le_occ (patClassId dqc new) (mkId dqc new)
          (X ++ mkId sqc new ++ Y) (lit_mem_patClassId dqc new) (mkId_ne_nil _ _)
        omega
      have hcross : reCount (patClassId sqc new) (X ++ mkId sqc new ++ Y) = 0 := by
        by_contra hcr
        obtain ⟨i1, n1, hf1⟩ := reCount_find_of_ne_zero _ _ hcr
        obtain ⟨i2, h2m⟩ := transfer_match_gen (patClassId sqc new) (patClassId sqc old)
          sqc new old X Y (fun m hm => patClassId_swap sqc new old m hm) huniqN
          (by rw [hf1]; simp)
        have hccr := reCount_pos _ _ (reFindAux_isSome_of _ _ i2 h2m)
        omega
      have hmatch1 : reCount (patIdClass sqc new) (X ++ mkId sqc new ++ Y) = 1 := by
        have hle := reCount_le_occ (patIdClass sqc new) (mkId sqc new)
          (X ++ mkId sqc new ++ Y) (lit_mem_patIdClass sqc new) (mkId_ne_nil _ _)
        omega
      have hcnt' : tkkCount (X ++ mkId sqc new ++ Y) new = 1 := by omega
      have hbwd := update_swap_core sqc X Y new old (patIdClass sqc new) hq hnew hold
        (Or.inl rfl) hmN h1' (by rw [otherQuote_sqc]; exact h2') hcnt'
      exact ⟨hfwd, hbwd⟩

/-- C6 : For a text of the shape `A ++ tag ++ B` with one qualifying tag whose
identifier literal `id=<q>old<q>` occurs exactly once (and with the other
quote character not at all), and whose new identifier occurs nowhere in the
text in either quote style, rewriting `old → new` and then `new → old`
reproduces the original text byte-for-byte, both runs reporting no error.
(The original claim had no hypothesis on the new value; it fails when the new
identifier already occurs in another qualifying element, see the
counterexample.) -/
theorem C6_roundtrip (idFirst : Bool) (q : Char) (A u v w B old new : Str)
    (hq : quoteChar q) (hold : safeId old) (hnew : safeId new)
    (hu : ∀ c ∈ u, c ≠ '>') (hv : ∀ c ∈ v, c ≠ '>') (hw : ∀ c ∈ w, c ≠ '>')
    (h1 : occCount (A ++ mkTag idFirst q u v w old ++ B) (mkId q old) = 1)
    (h2 : occCount (A ++ mkTag idFirst q u v w old ++ B) (mkId (otherQuote q) old) = 0)
    (hcnt : tkkCount (A ++ mkTag idFirst q u v w old ++ B) old = 1)
    (hn1 : occCount (A ++ mkTag idFirst q u v w old ++ B) (mkId q new) = 0)
    (hn2 : occCount (A ++ mkTag idFirst q u v w old ++ B) (mkId (otherQuote q) new) = 0) :
    update_svg_id (A ++ mkTag idFirst q u v w old ++ B) old new
      = (A ++ mkTag idFirst q u v w new ++ B, none)
    ∧ update_svg_id (A ++ mkTag idFirst q u v w new ++ B) new old
      = (A ++ mkTag idFirst q u v w old ++ B, none) := by
  have hmO := tag_match_exists idFirst q A u v w B old hu hv hw
  have hmN := tag_match_exists idFirst q A u v w B new hu hv hw
  cases idFirst
  · rw [tag_decomp_classFirst q A u v w B old] at h1 h2 hcnt hn1 hn2 hmO ⊢
    rw [tag_decomp_classFirst q A u v w B new] at hmN ⊢
    exact roundtrip_core q _ _ old new false hq hold hnew hmO hmN h1 h2 hcnt hn1 hn2
  · rw [tag_decomp_idFirst q A u v w B old] at h1 h2 hcnt hn1 hn2 hmO ⊢
    rw [tag_decomp_idFirst q A u v w B new] at hmN ⊢
    exact roundtrip_core q _ _ old new true hq hold hnew hmO hmN h1 h2 hcnt hn1 hn2

/-- The input of the C6 counterexample: a second `tkk` element already
carries the new identifier. -/
def c6content : Str :=
  "<g class=".data ++ dqc :: ("tkk".data ++ dqc :: (" id=".data ++ dqc :: ("o".data
    ++ dqc :: ("></g><g class=".data ++ dqc :: ("tkk".data ++ dqc :: (" id=".data
    ++ dqc :: ("n".data ++ dqc :: ">".data)))))))

/-- After rewriting `o → n`: two elements now carry the identifier `n`. -/
def c6mid : Str :=
  "<g class=".data ++ dqc :: ("tkk".data ++ dqc :: (" id=".data ++ dqc :: ("n".data
    ++ dqc :: ("></g><g class=".data ++ dqc :: ("tkk".data ++ dqc :: (" id=".data
    ++ dqc :: ("n".data ++ dqc :: ">".data)))))))

/-- C6 counterexample: when the new identifier already occurs in another
`tkk` element, the forward rewrite succeeds but the reverse rewrite hits the
ambiguity guard and returns the modified text with an error, so the round
trip does not restore the original. -/
theorem C6_roundtrip_counterexample :
    update_svg_id c6content "o".data "n".data = (c6mid, none)
    ∧ update_svg_id c6mid "n".data "o".data
        = (c6mid, some (occurrencesMsg "n".data 2))
    ∧ c6mid ≠ c6content :=
  ⟨by decide, by decide, by decide⟩

/-- C6 witness: a concrete instance of the amended round-trip theorem. -/
theorem C6_roundtrip_witness :
    update_svg_id ("p ".data ++ mkTag false dqc "g ".data " ".data [] "a".data
        ++ " s".data) "a".data "b".data
      = ("p ".data ++ mkTag false dqc "g ".data " ".data [] "b".data
        ++ " s".data, none)
    ∧ update_svg_id ("p ".data ++ mkTag false dqc "g ".data " ".data [] "b".data
        ++ " s".data) "b".data "a".data
      = ("p ".data ++ mkTag false dqc "g ".data " ".data [] "a".data
        ++ " s".data, none) :=
  C6_roundtrip false dqc "p ".data "g ".data " ".data [] " s".data "a".data "b".data
    (Or.inl rfl) (by decide) (by decide) (by decide) (by decide) (by decide)
    (by decide) (by decide) (by decide) (by decide) (by decide)

end UnifyTkk
